import Mathlib

/-! Verification development for the CRYSTAL DFT-output parser and model assembler
(`CrystalDFTConfiguration.cpp`).  The C++ routines are shallowly embedded as
executable Lean functions: text lines become an inductive `Line` alphabet of the
line shapes the scanner distinguishes, matrices become `List (List ℚ)` (the
values stored are real `double`s read with stream extraction; we model them as
exact rationals), and the stateful single-pass scan becomes explicit state
passing over a list of lines.  Stream reads that are undefined behaviour in the
C++ (out-of-range `std::vector`/armadillo accesses, control falling off the end
of the non-void `parseMatrix`) are modelled as `Option.none`. -/

namespace Xatu

/-! ## Vectors and matrices -/

/-- A 3-component real vector (armadillo `rowvec` of length 3; entries modelled
over ℚ since the C++ stores `double`s read from text). -/
structure Vec3 where
  x : ℚ
  y : ℚ
  z : ℚ
deriving DecidableEq, Repr

def vzero : Vec3 := ⟨0, 0, 0⟩

def vadd (a b : Vec3) : Vec3 := ⟨a.x + b.x, a.y + b.y, a.z + b.z⟩

def vsmul (c : ℚ) (a : Vec3) : Vec3 := ⟨c * a.x, c * a.y, c * a.z⟩

/-- Squared Euclidean norm.  The C++ compares `arma::norm(row) > threshold`;
for nonnegative `threshold` this is equivalent to
`normSq row > threshold^2`, which is how every comparison below is phrased
(exact arithmetic instead of a floating `sqrt`). -/
def normSq (a : Vec3) : ℚ := a.x ^ 2 + a.y ^ 2 + a.z ^ 2

/-- Dense matrix: list of rows (`arma::cx_mat`; every value the parser ever
stores is a real `double`, so entries are modelled as ℚ). -/
abbrev Mat := List (List ℚ)

/-- Entry read `matrix(i, j)`, with 0 outside the stored extent. -/
def entry (m : Mat) (i j : ℕ) : ℚ := (m.getD i []).getD j 0

/-- The matrix has `r` rows each of length `c`. -/
def dimsOk (m : Mat) (r c : ℕ) : Prop := m.length = r ∧ ∀ k, k < r → (m.getD k []).length = c

instance (m : Mat) (r c : ℕ) : Decidable (dimsOk m r c) := by
  unfold dimsOk; infer_instance

/-- Entry write `matrix(i, j) = v` (no-op out of range; the C++ write out of
range would be undefined behaviour, and all verified runs stay in range). -/
def setEntry (m : Mat) (i j : ℕ) (v : ℚ) : Mat := m.set i ((m.getD i []).set j v)

/-- Entry write with the signed indices the C++ computes (`rowIndex - 1`,
`colIndex - 1`).  Negative indices would be undefined behaviour in C++. -/
def setEntryZ (m : Mat) (i j : ℤ) (v : ℚ) : Mat :=
  if 0 ≤ i ∧ 0 ≤ j then setEntry m i.toNat j.toNat v else m

/-- `arma::zeros<arma::cx_mat>(n, n)`. -/
def zeroMat (n : ℕ) : Mat := List.replicate n (List.replicate n 0)

/-! ## The line alphabet

The scanner classifies raw text lines by substring markers.  Each constructor
stands for the class of strings triggering one branch of `parseContent`
(markers cited in the constructor comments); `blank` is the empty string,
`nums` a line of whitespace-separated numeric tokens, `atomRecord` a motif
record line, `other` any line matching no marker.  The sections the claims do
not touch ("DIRECT LATTICE VECTOR COMPONENTS", "NUMBER OF SHELLS",
"CORE ELECTRONS PER CELL", "LOCAL ATOMIC FUNCTIONS BASIS SET") are embedded as
standalone functions below instead of stream branches. -/

inductive Line where
  /-- The empty string. -/
  | blank
  /-- A non-empty line of numeric tokens only. -/
  | nums (toks : List ℚ)
  /-- "N. OF ATOMS PER CELL" followed by an integer. -/
  | natomsLine (n : ℤ)
  /-- "NUMBER OF AO" followed by an integer. -/
  | norbitalsLine (n : ℤ)
  /-- "N. OF ELECTRONS PER CELL" followed by an integer. -/
  | nelectronsLine (n : ℤ)
  /-- A line containing both "ATOM" and "SHELL" (the motif section header). -/
  | atomShell
  /-- A motif record: atom index, atomic number, species label, shell count,
  x, y, z. -/
  | atomRecord (idx natomField : ℤ) (species : String) (nsh : ℤ) (x y z : ℚ)
  /-- "OVERLAP MATRIX - CELL N." with cell index and translation coefficients. -/
  | overlapHdr (cellIndex cx cy cz : ℤ)
  /-- "FOCK MATRIX - CELL N." with cell index and translation coefficients. -/
  | fockHdr (cellIndex cx cy cz : ℤ)
  /-- A line containing the SOC marker string. -/
  | socLine
  /-- A line containing "UNRESTRICTED OPEN SHELL". -/
  | magneticLine
  /-- A line containing both "BETA" and "ELECTRONS". -/
  | betaLine
  /-- Any other line (asterisk separators, headers, prose). -/
  | other
deriving DecidableEq, Repr

/-- Integer tokens extracted by repeated `iss >> index` with an `int` target:
extraction stops at the first token that is not an integer. -/
def intToks (toks : List ℚ) : List ℤ :=
  (toks.takeWhile (fun q => q.den = 1)).map (fun q => q.num)

/-- Column indices read from the line following a blank line
(`while(iss >> index) colIndices.push_back(index)`).  On any non-numeric line
the first extraction fails and the list stays empty. -/
def colIndicesOf : Line → List ℤ
  | .nums toks => intToks toks
  | _ => []

/-- A line viewed as a matrix data line: `iss >> rowIndex` (which writes 0 on
extraction failure, per C++11) followed by `while (iss >> coef)`.  On an
`atomRecord` line the two leading integers are extracted and the species
string then stops extraction; on any non-numeric line everything fails. -/
def dataToks : Line → ℤ × List ℚ
  | .nums [] => (0, [])
  | .nums (t :: rest) =>
      if t.den = 1 then (t.num, rest) else (t.num / (t.den : ℤ), [])
  | .atomRecord i n _ _ _ _ _ => (i, [(n : ℚ)])
  | _ => (0, [])

/-! ## parseMatrix (CrystalDFTConfiguration.cpp lines 372-409) -/

/-- Inner value loop of `parseMatrix`:
`while(iss >> coef){ colIndex = colIndices[i]; matrix(rowIndex-1, colIndex-1) = coef; i++; }`.
Returns the updated matrix and the final `colIndex`.  `colIndices[i]` with
`i >= colIndices.size()` is undefined behaviour in C++, modelled as `none`. -/
def scatter (cols : List ℤ) (rowIndex : ℤ) : ℕ → ℤ → List ℚ → Mat → Option (Mat × ℤ)
  | _, colIndex, [], m => some (m, colIndex)
  | i, _, c :: rest, m =>
      match cols.get? i with
      | none => none
      | some ci => scatter cols rowIndex (i + 1) ci rest (setEntryZ m (rowIndex - 1) (ci - 1) c)

/-- Main loop of `parseMatrix` over the remaining stream.  State: the current
`colIndices` and the persistent `colIndex` (both survive across lines exactly
as the C++ locals do; `rowIndex` is rewritten by every data line, including to
0 on failed extraction, so it needs no parameter).  On success returns the
matrix together with the number of lines consumed.  Running out of lines
models the C++ control falling off the end of the non-void function
(undefined behaviour): result `none`, no error is raised and no matrix
returned. -/
def parseMatrixAux (D : ℕ) : List Line → List ℤ → ℤ → Mat → Option (Mat × ℕ)
  | [], _, _, _ => none
  | line :: rest, cols, colIndex, m =>
      if line = .blank then
        match rest with
        | [] => none
        | colLine :: rest2 =>
          match rest2 with
          | [] => none
          | dataLine :: rest3 =>
              if dataLine = .blank then
                match parseMatrixAux D rest3 (colIndicesOf colLine) colIndex m with
                | some (mm, k) => some (mm, k + 3)
                | none => none
              else
                match scatter (colIndicesOf colLine) (dataToks dataLine).1 0 colIndex
                    (dataToks dataLine).2 m with
                | none => none
                | some (m2, colIndex2) =>
                    if (dataToks dataLine).1 = (D : ℤ) ∧ colIndex2 = (D : ℤ) then
                      some (m2, 3)
                    else
                      match parseMatrixAux D rest3 (colIndicesOf colLine) colIndex2 m2 with
                      | some (mm, k) => some (mm, k + 3)
                      | none => none
      else
        match scatter cols (dataToks line).1 0 colIndex (dataToks line).2 m with
        | none => none
        | some (m2, colIndex2) =>
            if (dataToks line).1 = (D : ℤ) ∧ colIndex2 = (D : ℤ) then
              some (m2, 1)
            else
              match parseMatrixAux D rest cols colIndex2 m2 with
              | some (mm, k) => some (mm, k + 1)
              | none => none

/-- `parseMatrix` proper: matrix dimension `D` is the member `norbitals`; the
accumulator starts as `arma::zeros(D, D)` with empty `colIndices` and
`colIndex = 0`. -/
def parseMatrix (D : ℕ) (lines : List Line) : Option (Mat × ℕ) :=
  parseMatrixAux D lines [] 0 (zeroMat D)

/-! ## extractDimension / parseBravaisLattice (lines 216-241) -/

/-- The shed loop of `extractDimension`:
`for(i = 0; i < n_rows; i++){ if (norm > threshold) shed_row(i); }`.
The index advances even after a shed, so the row that slides into position `i`
is never examined.  `tsq` is the squared threshold (see `normSq`). -/
def shedLoop (tsq : ℚ) : ℕ → List Vec3 → List Vec3
  | i, rows =>
    if h : i < rows.length then
      if normSq (rows.get ⟨i, h⟩) > tsq then shedLoop tsq (i + 1) (rows.eraseIdx i)
      else shedLoop tsq (i + 1) rows
    else rows
termination_by i rows => rows.length - i
decreasing_by
  all_goals simp_wf
  · have := List.length_eraseIdx_add_one h
    omega
  · omega

/-- `extractDimension`: filters the lattice with `shedLoop` and sets
`ndim = bravaisLattice.n_rows`. -/
def extractDimension (tsq : ℚ) (bravaisLattice : List Vec3) : List Vec3 × ℕ :=
  let rows := shedLoop tsq 0 bravaisLattice
  (rows, rows.length)

/-- `parseBravaisLattice`: reads exactly 3 vector lines (the numeric parsing
of `parseVectors` lives in `ConfigurationBase.cpp`, outside this repository
snapshot; its output is the three parsed vectors taken here as input), then
calls `extractDimension`. -/
def parseBravaisLattice (tsq : ℚ) (v1 v2 v3 : Vec3) : List Vec3 × ℕ :=
  extractDimension tsq [v1, v2, v3]

/-! ## parseAtoms (lines 247-285) -/

/-- One motif record line: `iss >> index >> natom >> chemical_species >> nshells >> x >> y >> z`. -/
structure AtomRecord where
  idx : ℤ
  natomField : ℤ
  species : String
  nshells : ℤ
  x : ℚ
  y : ℚ
  z : ℚ
deriving DecidableEq, Repr

/-- Result of `parseAtoms`: the motif rows `(x, y, z, speciesIndex)` stored as
`arma::mat` rows, the shell counts per species, the species counter and the
first-seen species list. -/
structure AtomsResult where
  motif : List (List ℚ)
  shellsPerSpecies : List ℤ
  nspecies : ℕ
  species : List String
deriving DecidableEq, Repr

/-- The per-atom loop of `parseAtoms`.  A new label is appended to `species`,
its shell count recorded, and `chemical_species_to_index[label] = size()`
assigns the map's size before insertion (C++17 sequencing: the right-hand side
is evaluated first), i.e. the first-seen 0-based index; `map` is that map as
an association list.  Each motif row is `{x, y, z, (double)index}`.  The
reference atom `motif.row(0)` is computed by the C++ but the centering loop is
commented out, so positions are stored untranslated. -/
def parseAtomsLoop : List AtomRecord → List String → List ℤ → List (String × ℕ) → ℕ →
    List (List ℚ) → AtomsResult
  | [], species, shells, _, nspecies, motifAcc => ⟨motifAcc, shells, nspecies, species⟩
  | a :: rest, species, shells, map, nspecies, motifAcc =>
      if species.contains a.species then
        parseAtomsLoop rest species shells map nspecies
          (motifAcc ++ [[a.x, a.y, a.z, (((map.lookup a.species).getD 0 : ℕ) : ℚ)]])
      else
        parseAtomsLoop rest (species ++ [a.species]) (shells ++ [a.nshells])
          (map ++ [(a.species, map.length)]) (nspecies + 1)
          (motifAcc ++ [[a.x, a.y, a.z, ((map.length : ℕ) : ℚ)]])

/-- `parseAtoms` over the `natoms` record lines (the asterisk line before them
is skipped by the caller). -/
def parseAtoms (recs : List AtomRecord) : AtomsResult :=
  parseAtomsLoop recs [] [] [] 0 []

/-- First-seen deduplication of a label sequence (the specification's
description of species-index assignment, used to state what the code-side
association map computes). -/
def firstSeen (labels : List String) : List String :=
  labels.foldl (fun acc s => if acc.contains s then acc else acc ++ [s]) []

/-! ## parseAtomicBasis orbital-count bookkeeping (lines 293-366) -/

/-- One atom block of the "LOCAL ATOMIC FUNCTIONS BASIS SET" section, reduced
to what the orbital-count bookkeeping reads: the species label from the block
header and the cumulative AO counts parsed from the shell header lines
(`iss >> norbitals >> shellType`).  A block of an already-seen species carries
no shell lines (`shellCums = []`).  The Gaussian-coefficient tables consumed
between shell headers do not touch the counters. -/
structure BasisBlock where
  species : String
  shellCums : List ℤ
deriving DecidableEq, Repr

/-- The counting core of `parseAtomicBasis`, one step per atom, paired with
that atom's motif species tag `motif.row(atomIndex)(3)`.
Already-seen species: `totalOrbitals += orbitalsPerSpecies[tag]` (an
out-of-range tag is C++ undefined behaviour: `none`).  New species: the local
`norbitals` ends up holding the last shell header's cumulative count (or its
previous value if the species declares no shells), then
`orbitalsPerSpecies.push_back(norbitals - totalOrbitals); totalOrbitals = norbitals`. -/
def basisLoop : List (ℕ × BasisBlock) → List String → List ℤ → ℤ → ℤ → Option (List ℤ)
  | [], _, orbs, _, _ => some orbs
  | (tag, b) :: rest, species, orbs, totalOrbitals, norbitals =>
      if species.contains b.species then
        match orbs.get? tag with
        | none => none
        | some o => basisLoop rest species orbs (totalOrbitals + o) norbitals
      else
        basisLoop rest (species ++ [b.species])
          (orbs ++ [b.shellCums.getLastD norbitals - totalOrbitals])
          (b.shellCums.getLastD norbitals) (b.shellCums.getLastD norbitals)

/-- `parseAtomicBasis`, restricted to the per-species orbital counts it
derives (`this->orbitalsPerSpecies`).  `tags` are the motif species indices of
the atoms in file order. -/
def parseAtomicBasis (tags : List ℕ) (blocks : List BasisBlock) : Option (List ℤ) :=
  basisLoop (tags.zip blocks) [] [] 0 0

/-! ## parseContent (lines 35-209) -/

/-- The accumulator fields of `CrystalDFTConfiguration` touched by the
modelled branches (class members default-construct to 0 / empty / false). -/
structure ScanState where
  natoms : ℤ
  norbitals : ℤ
  totalElectrons : ℤ
  ndim : ℕ
  bravaisLattice : List Vec3
  bravaisVectors : List Vec3
  overlapMatrices : List Mat
  fockMatrices : List Mat
  alphaMatrices : List Mat
  betaMatrices : List Mat
  motif : List (List ℚ)
  shellsPerSpecies : List ℤ
  nspecies : ℕ
  SOC_FLAG : Bool
  MAGNETIC_FLAG : Bool
  alpha_electrons : Bool
deriving DecidableEq, Repr

/-- Fresh state at construction time. -/
def initState : ScanState :=
  ⟨0, 0, 0, 0, [], [], [], [], [], [], [], [], 0, false, false, true⟩

/-- Translation vector of an accepted cell:
`cell += bravaisLattice.row(i) * coefCombinations[i]` for `i < ndim`
(the `arma::rowvec cell(3)` the C++ starts from is formally uninitialised
memory; it is modelled as the zero vector, the value every real run observes). -/
def translationVector (ndim : ℕ) (lat : List Vec3) (cx cy cz : ℤ) : Vec3 :=
  (List.range ndim).foldl
    (fun acc i => vadd acc (vsmul (([cx, cy, cz].getD i 0 : ℤ) : ℚ) (lat.getD i vzero))) vzero

/-- Exactly `n` motif record lines (`getline` + full extraction per atom).
Any other line shape inside the section would leave the C++ extraction with
garbage values; such streams are outside the modelled format (`none`). -/
def takeAtomRecords : ℕ → List Line → Option (List AtomRecord)
  | 0, _ => some []
  | n + 1, .atomRecord i na sp ns x y z :: rest =>
      match takeAtomRecords n rest with
      | some recs => some (⟨i, na, sp, ns, x, y, z⟩ :: recs)
      | none => none
  | _ + 1, _ => none

/-- The scanner loop of `parseContent`: one line at a time, dispatching on the
markers (else-if chain, then the separate "BETA ELECTRONS" and "FOCK MATRIX"
checks — distinct constructors make the branches disjoint exactly as the
marker strings are on real lines).  A cell header with
`cellIndex <= ncells` is accepted: for OVERLAP the translation vector and the
`parseMatrix` result are appended, for FOCK the matrix is routed by the
magnetic/SOC flags.  A header with `cellIndex > ncells` is simply passed
over — `parseMatrix` is not invoked, and the block's blank/numeric lines are
consumed one by one by this very loop, matching no marker.  `parseMatrix`
running out of stream is C++ undefined behaviour, surfaced as `.error`. -/
def parseContent (ncells : ℤ) : List Line → ScanState → Except String ScanState
  | [], st => .ok st
  | .natomsLine n :: rest, st => parseContent ncells rest { st with natoms := n }
  | .norbitalsLine n :: rest, st => parseContent ncells rest { st with norbitals := n }
  | .nelectronsLine n :: rest, st => parseContent ncells rest { st with totalElectrons := n }
  | .atomShell :: rest, st =>
      if st.natoms = 0 then .error "Must parse first number of atoms"
      else
        match rest with
        | [] => .error "stream ended inside atom section"
        | _ :: rest2 =>
            match takeAtomRecords st.natoms.toNat rest2 with
            | none => .error "malformed atom section"
            | some recs =>
                let res := parseAtoms recs
                parseContent ncells (rest2.drop st.natoms.toNat)
                  { st with motif := res.motif, shellsPerSpecies := res.shellsPerSpecies,
                            nspecies := res.nspecies }
  | .overlapHdr ci cx cy cz :: rest, st =>
      if ci ≤ ncells then
        match parseMatrix st.norbitals.toNat rest with
        | none => .error "parseMatrix ran off the end of the stream"
        | some (m, k) =>
            parseContent ncells (rest.drop k)
              { st with
                  bravaisVectors := st.bravaisVectors ++
                    [translationVector st.ndim st.bravaisLattice cx cy cz],
                  overlapMatrices := st.overlapMatrices ++ [m] }
      else parseContent ncells rest st
  | .socLine :: rest, st => parseContent ncells rest { st with SOC_FLAG := true }
  | .magneticLine :: rest, st => parseContent ncells rest { st with MAGNETIC_FLAG := true }
  | .betaLine :: rest, st => parseContent ncells rest { st with alpha_electrons := false }
  | .fockHdr ci _ _ _ :: rest, st =>
      if ci ≤ ncells then
        match parseMatrix st.norbitals.toNat rest with
        | none => .error "parseMatrix ran off the end of the stream"
        | some (m, k) =>
            if st.MAGNETIC_FLAG then
              if st.alpha_electrons then
                parseContent ncells (rest.drop k)
                  { st with alphaMatrices := st.alphaMatrices ++ [m] }
              else
                parseContent ncells (rest.drop k)
                  { st with betaMatrices := st.betaMatrices ++ [m] }
            else if st.SOC_FLAG then parseContent ncells (rest.drop k) st
            else
              parseContent ncells (rest.drop k)
                { st with fockMatrices := st.fockMatrices ++ [m] }
      else parseContent ncells rest st
  | _ :: rest, st => parseContent ncells rest st
termination_by lines _ => lines.length
decreasing_by
  all_goals simp_wf
  all_goals omega

/-! ## mapContent (lines 415-479) -/

/-- The `system_info` record filled by `mapContent`. -/
structure SystemInfo where
  ndim : ℕ
  bravaisLattice : List Vec3
  motif : List (List ℚ)
  filling : ℚ
  bravaisVectors : List Vec3
  overlap : List Mat
  norbitals : List ℤ
  hamiltonian : List Mat
deriving DecidableEq, Repr

def spinUpBlock : Mat := [[1, 0], [0, 0]]

def spinDownBlock : Mat := [[0, 0], [0, 1]]

def eye2 : Mat := [[1, 0], [0, 1]]

/-- Kronecker product `arma::kron` on dense row-list matrices. -/
def kron (A B : Mat) : Mat :=
  (A.map (fun ar => B.map (fun br => (ar.map (fun a => br.map (fun b => a * b))).flatten))).flatten

/-- Elementwise matrix sum (operands of equal dimensions, as armadillo
requires). -/
def addMat (A B : Mat) : Mat :=
  List.zipWith (fun r s => List.zipWith (fun a b => a + b) r s) A B

/-- The magnetic combination loop of `mapContent`: for every alpha slice `i`,
`kron(alpha_i, spinUp) + kron(beta_i, spinDown)` is appended to
`this->fockMatrices` and `kron(overlap_i, eye(2,2))` to the new overlap stack.
`beta.slice(i)` or `overlap.slice(i)` out of range is C++ undefined
behaviour (`none`). -/
def magneticFold (st : ScanState) : Option (List Mat × List Mat) :=
  if st.alphaMatrices.length ≤ st.betaMatrices.length ∧
      st.alphaMatrices.length ≤ st.overlapMatrices.length then
    some
      (st.fockMatrices ++ (List.range st.alphaMatrices.length).map (fun i =>
          addMat (kron (st.alphaMatrices.getD i []) spinUpBlock)
            (kron (st.betaMatrices.getD i []) spinDownBlock)),
        (List.range st.alphaMatrices.length).map (fun i =>
          kron (st.overlapMatrices.getD i []) eye2))
  else none

/-- `mapContent`: base record with `filling = totalElectrons / 2.`, then the
SOC branch (doubling only), the magnetic branch (doubling plus the Kronecker
combination, with the overlap stack replaced), or the plain pass-through;
`hamiltonian` is whatever `this->fockMatrices` holds at the end.
`orbitalsPerSpecies` is the vector built by `parseAtomicBasis`. -/
def mapContent (st : ScanState) (orbitalsPerSpecies : List ℤ) : Option SystemInfo :=
  let baseFilling : ℚ := (st.totalElectrons : ℚ) / 2
  if st.SOC_FLAG then
    some ⟨st.ndim, st.bravaisLattice, st.motif, baseFilling * 2, st.bravaisVectors,
      st.overlapMatrices, orbitalsPerSpecies.map (fun v => v * 2), st.fockMatrices⟩
  else if st.MAGNETIC_FLAG then
    match magneticFold st with
    | none => none
    | some (newFock, newOverlap) =>
        some ⟨st.ndim, st.bravaisLattice, st.motif, baseFilling * 2, st.bravaisVectors,
          newOverlap, orbitalsPerSpecies.map (fun v => v * 2), newFock⟩
  else
    some ⟨st.ndim, st.bravaisLattice, st.motif, baseFilling, st.bravaisVectors,
      st.overlapMatrices, orbitalsPerSpecies, st.fockMatrices⟩

/-! ## Reference generators: a matrix printed in column blocks

These produce the blocked text the round-trip claims feed to `parseMatrix`:
for each block, a blank line, the 1-based column-index line, then one row line
per row `1..D` carrying the row index and the reference matrix's values at the
block's columns. -/

def genRowLine (M : Mat) (cols : List ℕ) (r : ℕ) : Line :=
  .nums ((r : ℚ) :: cols.map (fun c => entry M (r - 1) (c - 1)))

def genBlock (M : Mat) (D : ℕ) (cols : List ℕ) : List Line :=
  .blank :: .nums (cols.map (fun (c : ℕ) => (c : ℚ))) :: (List.range' 1 D).map (genRowLine M cols)

def genBlocks (M : Mat) (D : ℕ) (blocks : List (List ℕ)) : List Line :=
  (blocks.map (genBlock M D)).flatten

/-- The writes `parseMatrix` performs for one generated row line. -/
def writeRow (M : Mat) (cols : List ℕ) (r : ℕ) (m : Mat) : Mat :=
  cols.foldl
    (fun acc (c : ℕ) => setEntryZ acc ((r : ℤ) - 1) ((c : ℤ) - 1) (entry M (r - 1) (c - 1))) m

/-- The writes for one whole block (rows `1..D`). -/
def writeBlock (M : Mat) (D : ℕ) (cols : List ℕ) (m : Mat) : Mat :=
  (List.range' 1 D).foldl (fun acc r => writeRow M cols r acc) m

/-- The writes for a sequence of blocks. -/
def writeBlocks (M : Mat) (D : ℕ) (blocks : List (List ℕ)) (m : Mat) : Mat :=
  blocks.foldl (fun acc cols => writeBlock M D cols acc) m

/-! ## Reference generators: OVERLAP / FOCK matrix sections -/

/-- One matrix section of the stream: its header kind, cell index, translation
coefficients, the dense matrix it encodes and the column blocks it is printed
in. -/
structure MatSection where
  isFock : Bool
  cellIndex : ℤ
  cx : ℤ
  cy : ℤ
  cz : ℤ
  M : Mat
  blocks : List (List ℕ)
deriving DecidableEq, Repr

/-- The text of one section: the marker line followed by the blocked matrix. -/
def genSection (D : ℕ) (s : MatSection) : List Line :=
  (if s.isFock then Line.fockHdr s.cellIndex s.cx s.cy s.cz
   else Line.overlapHdr s.cellIndex s.cx s.cy s.cz) :: genBlocks s.M D s.blocks

/-- Well-formedness of a section of dimension `D`: the matrix is dense `D × D`
and the blocks are a partition of the columns `1..D` (each nonempty, joined
contents a permutation of `1..D`) whose final block ends with column `D` (the
bottom-right terminator the reader requires). -/
def SectionWF (D : ℕ) (s : MatSection) : Prop :=
  dimsOk s.M D D ∧ s.blocks ≠ [] ∧ (∀ b ∈ s.blocks, b ≠ []) ∧
    s.blocks.flatten.Perm (List.range' 1 D) ∧ (s.blocks.getLastD []).getLastD 0 = D

instance (D : ℕ) (s : MatSection) : Decidable (SectionWF D s) := by
  unfold SectionWF; infer_instance

/-- Modelled from the spec: the retention rule — "only cells with index ≤ the
caller-supplied limit are retained". -/
def acceptedSections (ncells : ℤ) (secs : List MatSection) : List MatSection :=
  secs.filter (fun s => s.cellIndex ≤ ncells)

/-- Modelled from the spec: what one accepted section contributes to the
accumulated state — an overlap slice plus its translation vector, or a Fock
slice routed to the stack selected by the magnetic/SOC flags. -/
def applySection (st : ScanState) (s : MatSection) : ScanState :=
  if s.isFock then
    if st.MAGNETIC_FLAG then
      if st.alpha_electrons then { st with alphaMatrices := st.alphaMatrices ++ [s.M] }
      else { st with betaMatrices := st.betaMatrices ++ [s.M] }
    else if st.SOC_FLAG then st
    else { st with fockMatrices := st.fockMatrices ++ [s.M] }
  else
    { st with
        bravaisVectors := st.bravaisVectors ++
          [translationVector st.ndim st.bravaisLattice s.cx s.cy s.cz],
        overlapMatrices := st.overlapMatrices ++ [s.M] }

/-! ## Matrix entry and dimension lemmas -/

theorem length_setEntry (m : Mat) (i j : ℕ) (v : ℚ) : (setEntry m i j v).length = m.length := by
  simp [setEntry]

theorem getD_setEntry_self (m : Mat) (i j : ℕ) (v : ℚ) (hi : i < m.length) :
    (setEntry m i j v).getD i [] = (m.getD i []).set j v := by
  simp [setEntry, List.getD_eq_getElem?_getD, List.getElem?_set_eq_of_lt _ hi]

theorem getD_setEntry_other (m : Mat) (i j k : ℕ) (v : ℚ) (hk : k ≠ i) :
    (setEntry m i j v).getD k [] = m.getD k [] := by
  simp [setEntry, List.getD_eq_getElem?_getD, List.getElem?_set_ne (Ne.symm hk)]

theorem dimsOk_setEntry {m : Mat} {r c : ℕ} (h : dimsOk m r c) (i j : ℕ) (v : ℚ) :
    dimsOk (setEntry m i j v) r c := by
  obtain ⟨hlen, hrow⟩ := h
  refine ⟨by simp [length_setEntry, hlen], fun k hk => ?_⟩
  by_cases hki : k = i
  · subst hki
    rw [getD_setEntry_self m k j v (by omega)]
    rw [List.length_set]
    exact hrow k hk
  · rw [getD_setEntry_other m i j k v hki]
    exact hrow k hk

theorem entry_setEntry_self {m : Mat} {r c : ℕ} (h : dimsOk m r c) (i j : ℕ) (v : ℚ)
    (hi : i < r) (hj : j < c) : entry (setEntry m i j v) i j = v := by
  obtain ⟨hlen, hrow⟩ := h
  rw [entry, getD_setEntry_self m i j v (by omega)]
  have hjlen : j < (m.getD i []).length := by rw [hrow i hi]; exact hj
  rw [List.getD_eq_getElem?_getD, List.getElem?_set_eq_of_lt v hjlen]
  rfl

theorem entry_setEntry_other (m : Mat) (i j i2 j2 : ℕ) (v : ℚ) (h : i2 ≠ i ∨ j2 ≠ j) :
    entry (setEntry m i j v) i2 j2 = entry m i2 j2 := by
  rcases h with h | h
  · rw [entry, entry, getD_setEntry_other m i j i2 v h]
  · by_cases hrow : i2 = i
    · subst hrow
      by_cases hi : i2 < m.length
      · rw [entry, entry, getD_setEntry_self m i2 j v hi]
        simp [List.getD_eq_getElem?_getD, List.getElem?_set_ne (Ne.symm h)]
      · have : m.set i2 ((m.getD i2 []).set j v) = m := by
          apply List.set_eq_of_length_le
          omega
        rw [entry, setEntry, this]
        rfl
    · rw [entry, entry, getD_setEntry_other m i j i2 v hrow]

theorem dimsOk_zeroMat (n : ℕ) : dimsOk (zeroMat n) n n := by
  refine ⟨by simp [zeroMat], fun k hk => ?_⟩
  simp [zeroMat, List.getD_eq_getElem?_getD, List.getElem?_replicate, hk]

theorem entry_zeroMat (n i j : ℕ) : entry (zeroMat n) i j = 0 := by
  by_cases hi : i < n
  · simp [entry, zeroMat, List.getD_eq_getElem?_getD, List.getElem?_replicate, hi]
    by_cases hj : j < n <;> simp [hj]
  · simp [entry, zeroMat, List.getD_eq_getElem?_getD, List.getElem?_replicate, hi]

theorem mat_ext {m m2 : Mat} {D : ℕ} (hm : dimsOk m D D) (hm2 : dimsOk m2 D D)
    (h : ∀ i, i < D → ∀ j, j < D → entry m i j = entry m2 i j) : m = m2 := by
  obtain ⟨hlen, hrow⟩ := hm
  obtain ⟨hlen2, hrow2⟩ := hm2
  apply List.ext_getElem?
  intro i
  by_cases hi : i < D
  · have hi1 : i < m.length := by omega
    have hi2 : i < m2.length := by omega
    have h1 : m[i]? = some (m.getD i []) := by
      rw [List.getElem?_eq_getElem hi1, List.getD_eq_getElem m [] hi1]
    have h2 : m2[i]? = some (m2.getD i []) := by
      rw [List.getElem?_eq_getElem hi2, List.getD_eq_getElem m2 [] hi2]
    rw [h1, h2]
    congr 1
    apply List.ext_getElem?
    intro j
    by_cases hj : j < D
    · have hj1 : j < (m.getD i []).length := by rw [hrow i hi]; exact hj
      have hj2 : j < (m2.getD i []).length := by rw [hrow2 i hi]; exact hj
      have e1 : (m.getD i [])[j]? = some (entry m i j) := by
        rw [entry, List.getElem?_eq_getElem hj1, List.getD_eq_getElem _ 0 hj1]
      have e2 : (m2.getD i [])[j]? = some (entry m2 i j) := by
        rw [entry, List.getElem?_eq_getElem hj2, List.getD_eq_getElem _ 0 hj2]
      rw [e1, e2, h i hi j hj]
    · have e1 : (m.getD i [])[j]? = none := by
        apply List.getElem?_eq_none
        rw [hrow i hi]; omega
      have e2 : (m2.getD i [])[j]? = none := by
        apply List.getElem?_eq_none
        rw [hrow2 i hi]; omega
      rw [e1, e2]
  · have e1 : m[i]? = none := by
      apply List.getElem?_eq_none; omega
    have e2 : m2[i]? = none := by
      apply List.getElem?_eq_none; omega
    rw [e1, e2]

/-! ## parseAtoms characterization (for claims C6 and C9) -/

/-- The species list grows by first-seen appends. -/
def speciesAfter : List AtomRecord → List String → List String
  | [], seen => seen
  | a :: rest, seen =>
      speciesAfter rest (if seen.contains a.species then seen else seen ++ [a.species])

theorem indexOf_append_of_mem {s : String} {l t : List String} (h : s ∈ l) :
    (l ++ t).indexOf s = l.indexOf s := by
  induction l with
  | nil => cases h
  | cons a l ih =>
      by_cases has : s = a
      · subst has
        simp [List.indexOf_cons_self]
      · have hmem : s ∈ l := by
          cases List.mem_cons.mp h with
          | inl h1 => exact absurd h1 has
          | inr h2 => exact h2
        have hne : (a == s) = false := by
          simp [beq_iff_eq]
          exact fun hc => has hc.symm
        simp only [List.cons_append, List.indexOf_cons, hne]
        rw [ih hmem]

theorem indexOf_speciesAfter_of_mem (recs : List AtomRecord) (seen : List String)
    (s : String) (h : s ∈ seen) :
    (speciesAfter recs seen).indexOf s = seen.indexOf s := by
  induction recs generalizing seen with
  | nil => rfl
  | cons a rest ih =>
      rw [speciesAfter]
      by_cases hmem : a.species ∈ seen
      · rw [if_pos (List.elem_iff.mpr hmem)]
        exact ih seen h
      · rw [if_neg (fun hc => hmem (List.elem_iff.mp hc))]
        rw [ih (seen ++ [a.species]) (List.mem_append_left _ h)]
        exact indexOf_append_of_mem h

/-- Invariant of the `parseAtoms` fold: with the association map mirroring the
species list, the loop appends exactly one motif row per record, whose tag is
the first-seen index of its label, i.e. its index in the final species list. -/
theorem parseAtomsLoop_spec (recs : List AtomRecord) :
    ∀ (species : List String) (shells : List ℤ) (map : List (String × ℕ))
      (motifAcc : List (List ℚ)),
      (∀ s, map.lookup s = if s ∈ species then some (species.indexOf s) else none) →
      map.length = species.length →
      (parseAtomsLoop recs species shells map species.length motifAcc).motif =
        motifAcc ++ recs.map (fun a =>
          [a.x, a.y, a.z, (((speciesAfter recs species).indexOf a.species : ℕ) : ℚ)]) ∧
      (parseAtomsLoop recs species shells map species.length motifAcc).species =
        speciesAfter recs species := by
  induction recs with
  | nil => intro species shells map motifAcc _ _; simp [parseAtomsLoop, speciesAfter]
  | cons a rest ih =>
      intro species shells map motifAcc hmap hlen
      rw [parseAtomsLoop, speciesAfter]
      by_cases hmem : a.species ∈ species
      · rw [if_pos (List.elem_iff.mpr hmem), if_pos (List.elem_iff.mpr hmem)]
        have hidx : ((map.lookup a.species).getD 0) = species.indexOf a.species := by
          rw [hmap a.species, if_pos hmem]
          rfl
        obtain ⟨h1, h2⟩ := ih species shells map
          (motifAcc ++ [[a.x, a.y, a.z, (((map.lookup a.species).getD 0 : ℕ) : ℚ)]]) hmap hlen
        refine ⟨?_, h2⟩
        rw [h1, hidx, List.append_assoc]
        simp only [List.map_cons]
        rw [indexOf_speciesAfter_of_mem rest species a.species hmem]
        simp
      · rw [if_neg (fun hc => hmem (List.elem_iff.mp hc)),
           if_neg (fun hc => hmem (List.elem_iff.mp hc))]
        have hmap2 : ∀ s, (map ++ [(a.species, map.length)]).lookup s =
            if s ∈ species ++ [a.species] then
              some ((species ++ [a.species]).indexOf s) else none := by
          intro s
          by_cases hs : s ∈ species
          · rw [List.lookup_append, hmap s, if_pos hs,
               if_pos (List.mem_append_left _ hs), indexOf_append_of_mem hs]
            rfl
          · by_cases hsa : s = a.species
            · subst hsa
              rw [List.lookup_append, hmap a.species, if_neg hs, if_pos (by simp)]
              rw [List.indexOf_append_of_not_mem hs]
              simp [List.lookup_cons, hlen, List.indexOf_cons_self]
            · rw [List.lookup_append, hmap s, if_neg hs, if_neg (by simp [hs, hsa])]
              have hbeq : (s == a.species) = false := beq_eq_false_iff_ne.mpr hsa
              simp [List.lookup_cons, hbeq]
        have hlen2 : (map ++ [(a.species, map.length)]).length =
            (species ++ [a.species]).length := by
          simp [hlen]
        have hns : (species ++ [a.species]).length = species.length + 1 := by simp
        have hrec := ih (species ++ [a.species]) (shells ++ [a.nshells])
          (map ++ [(a.species, map.length)])
          (motifAcc ++ [[a.x, a.y, a.z, ((map.length : ℕ) : ℚ)]]) hmap2 hlen2
        rw [hns] at hrec
        obtain ⟨h1, h2⟩ := hrec
        refine ⟨?_, h2⟩
        rw [h1, List.append_assoc]
        have hmemapp : a.species ∈ species ++ [a.species] := by simp
        have hstab := indexOf_speciesAfter_of_mem rest (species ++ [a.species]) a.species hmemapp
        have hval : (species ++ [a.species]).indexOf a.species = map.length := by
          rw [List.indexOf_append_of_not_mem hmem]
          simp [hlen]
        simp only [List.map_cons]
        rw [hstab, hval]
        simp

theorem speciesAfter_eq_foldl (recs : List AtomRecord) (seen : List String) :
    speciesAfter recs seen =
      (recs.map AtomRecord.species).foldl
        (fun acc s => if acc.contains s then acc else acc ++ [s]) seen := by
  induction recs generalizing seen with
  | nil => rfl
  | cons a rest ih => rw [speciesAfter, List.map_cons, List.foldl_cons, ih]

/-- Top-level characterization of `parseAtoms`: the species list is the
first-seen deduplication of the labels, and each motif row is the untranslated
position followed by the label's first-seen index. -/
theorem parseAtoms_spec (recs : List AtomRecord) :
    (parseAtoms recs).species = firstSeen (recs.map AtomRecord.species) ∧
    (parseAtoms recs).motif = recs.map (fun a =>
      [a.x, a.y, a.z,
       (((firstSeen (recs.map AtomRecord.species)).indexOf a.species : ℕ) : ℚ)]) := by
  have h := parseAtomsLoop_spec recs [] [] [] [] (by intro s; simp) rfl
  have hfold : speciesAfter recs [] = firstSeen (recs.map AtomRecord.species) := by
    rw [speciesAfter_eq_foldl, firstSeen]
  rw [parseAtoms]
  rw [hfold] at h
  exact ⟨h.2, by simpa using h.1⟩

/-! ## Claim theorems: C6, C9, C2, C7, C8, C4, and the C1 counterexample -/

/-- C6: for every sequence of atom records, `parseAtoms` assigns species
indices in first-seen order of the species label regardless of later repeats,
and each motif row carries the position plus that species index as its numeric
tag; in particular atoms in order [C, H, C, O, H] yield species ["C", "H", "O"]
(C = 0, H = 1, O = 2) and tags [0, 1, 0, 2, 1]. -/
theorem c6_species_first_seen (recs : List AtomRecord) :
    (parseAtoms recs).species = firstSeen (recs.map AtomRecord.species) ∧
    (parseAtoms recs).motif = recs.map (fun a =>
      [a.x, a.y, a.z,
       (((firstSeen (recs.map AtomRecord.species)).indexOf a.species : ℕ) : ℚ)]) ∧
    (parseAtoms [⟨1, 6, "C", 4, 0, 0, 0⟩, ⟨2, 1, "H", 1, 1, 0, 0⟩, ⟨3, 6, "C", 4, 2, 0, 0⟩,
      ⟨4, 8, "O", 3, 3, 0, 0⟩, ⟨5, 1, "H", 1, 4, 0, 0⟩]).species = ["C", "H", "O"] ∧
    (parseAtoms [⟨1, 6, "C", 4, 0, 0, 0⟩, ⟨2, 1, "H", 1, 1, 0, 0⟩, ⟨3, 6, "C", 4, 2, 0, 0⟩,
      ⟨4, 8, "O", 3, 3, 0, 0⟩, ⟨5, 1, "H", 1, 4, 0, 0⟩]).motif.map (fun row => row.getD 3 0) =
      [0, 1, 0, 2, 1] := by
  refine ⟨(parseAtoms_spec recs).1, (parseAtoms_spec recs).2, by decide, by decide⟩

/-- C9 counterexample: the claim says the stored motif is centered on the
first atom (so the first atom lies at the origin), but the centering loop in
the source is commented out: a single atom read at position (1, 2, 3) is
stored at (1, 2, 3), not at the origin. -/
theorem c9_centering_counterexample :
    (parseAtoms [⟨1, 6, "C", 4, 1, 2, 3⟩]).motif = [[1, 2, 3, 0]] ∧
    ([[(1 : ℚ), 2, 3, 0]] : List (List ℚ)) ≠ [[0, 0, 0, 0]] := by decide

/-- C9 amended: after the atom-parsing pass the stored motif keeps the
original (untranslated) positions — the reference atom is computed but the
translation loop is absent, so every atom, the first included, lies at its
input position. -/
theorem c9_motif_uncentered (recs : List AtomRecord) :
    (parseAtoms recs).motif.map (fun row => row.take 3) =
      recs.map (fun a => [a.x, a.y, a.z]) := by
  rw [(parseAtoms_spec recs).2, List.map_map]
  apply List.map_congr_left
  intro a _
  rfl

/-- C2 (code bug): on lattice rows (1,0,0), (4,0,0), (4,0,0) with threshold 2
(squared: 4), exactly k = 1 row has norm ≤ threshold, yet `extractDimension`
retains [(1,0,0), (4,0,0)] and reports ndim = 2: `shed_row(i)` followed by
`i++` skips the row that slides into the shed position, so the second
over-threshold vector survives and the claimed invariant (every retained
vector has norm ≤ threshold) fails. -/
theorem c2_extractDimension_shed_bug :
    parseBravaisLattice 4 ⟨1, 0, 0⟩ ⟨4, 0, 0⟩ ⟨4, 0, 0⟩ = ([⟨1, 0, 0⟩, ⟨4, 0, 0⟩], 2) ∧
    normSq ⟨4, 0, 0⟩ > 4 := by
  constructor
  · simp [parseBravaisLattice, extractDimension, shedLoop, normSq]
    norm_num
  · norm_num [normSq]

/-- C7 (code bug): on a stream that ends before the bottom-right corner of the
matrix is reached (here: dimension 2, but only row 1 of a block with columns
1, 2 is present), control in the C++ falls off the end of the non-void
`parseMatrix` — undefined behaviour, modelled as `none`: no explicit error is
raised and no matrix value is returned, where the claim demands an explicit
error. -/
theorem c7_truncated_matrix_ub :
    parseMatrix 2 [Line.blank, Line.nums [1, 2], Line.nums [1, 1, 0]] = none := by decide

/-- C8: if the atom-section marker (a line containing both "ATOM" and "SHELL")
is scanned while the atom count is still 0, `parseContent` throws
`std::logic_error("Must parse first number of atoms")`, aborting the parse
with no state (hence no motif) produced. -/
theorem c8_atom_count_precondition (ncells : ℤ) (rest : List Line) (st : ScanState)
    (h : st.natoms = 0) :
    parseContent ncells (Line.atomShell :: rest) st =
      .error "Must parse first number of atoms" := by
  rw [parseContent.eq_def]
  simp [h]

theorem c8_atom_count_precondition_witness :
    parseContent 0 [Line.atomShell] initState = .error "Must parse first number of atoms" :=
  c8_atom_count_precondition 0 [] initState rfl

/-- C4 counterexample: on the claim's literal data — cumulative totals
[10, 10, 14] for three atoms of two distinct species, the second atom a
duplicate of the first — the code yields species orbital counts [10, -6], not
the claimed [10, 4]: the duplicate advances the running total to 20, so the
second species gets 14 - 20 = -6. -/
theorem c4_cumulative_literal_counterexample :
    parseAtomicBasis [0, 0, 1] [⟨"C", [10]⟩, ⟨"C", []⟩, ⟨"O", [14]⟩] = some [10, -6] ∧
    (some [(10 : ℤ), -6] ≠ some [(10 : ℤ), 4]) := by decide

/-- C4 amended: each new species contributes `(cumulative count at the end of
its shells) - (total accumulated so far)` to `orbitalsPerSpecies`, and an atom
of an already-seen species advances the running total by that species'
previously recorded orbital count; consistent example: cumulative totals 10
and 24 for the two distinct species, with the duplicate advancing the total by
the recorded 10, yield species orbital counts [10, 4]. -/
theorem c4_orbital_count_difference :
    (∀ (rest : List (ℕ × BasisBlock)) (species : List String) (orbs : List ℤ)
        (total norb : ℤ) (tag : ℕ) (b : BasisBlock),
        b.species ∉ species →
        basisLoop ((tag, b) :: rest) species orbs total norb =
          basisLoop rest (species ++ [b.species])
            (orbs ++ [b.shellCums.getLastD norb - total])
            (b.shellCums.getLastD norb) (b.shellCums.getLastD norb)) ∧
    (∀ (rest : List (ℕ × BasisBlock)) (species : List String) (orbs : List ℤ)
        (total norb : ℤ) (tag : ℕ) (b : BasisBlock) (o : ℤ),
        b.species ∈ species → orbs.get? tag = some o →
        basisLoop ((tag, b) :: rest) species orbs total norb =
          basisLoop rest species orbs (total + o) norb) ∧
    parseAtomicBasis [0, 0, 1] [⟨"C", [10]⟩, ⟨"C", []⟩, ⟨"O", [24]⟩] = some [10, 4] := by
  refine ⟨?_, ?_, by decide⟩
  · intro rest species orbs total norb tag b hmem
    rw [basisLoop, if_neg (fun hc => hmem (List.elem_iff.mp hc))]
  · intro rest species orbs total norb tag b o hmem hget
    rw [basisLoop, if_pos (List.elem_iff.mpr hmem), hget]

theorem c4_orbital_count_difference_witness :
    basisLoop [((0 : ℕ), (⟨"H", [5]⟩ : BasisBlock))] [] [] 0 0 =
      basisLoop [] ["H"] [5] 5 5 ∧
    basisLoop [((0 : ℕ), (⟨"H", []⟩ : BasisBlock))] ["H"] [5] 5 5 =
      basisLoop [] ["H"] [5] 10 5 := by
  constructor
  · exact c4_orbital_count_difference.1 [] [] [] 0 0 0 ⟨"H", [5]⟩ (by decide)
  · exact c4_orbital_count_difference.2.1 [] ["H"] [5] 5 5 0 ⟨"H", []⟩ 5 (by decide) (by decide)

/-- C1 counterexample: for the 2 × 2 identity reference matrix printed with
the column partition [[2], [1]] (a partition of the columns into blocks), the
reader terminates on the first block — whose last column index equals the
dimension — after consuming only 4 of the 8 generated lines, and returns
[[0, 0], [0, 1]], which differs from the reference matrix. -/
theorem c1_partition_counterexample :
    parseMatrix 2 (genBlocks [[1, 0], [0, 1]] 2 [[2], [1]]) = some ([[0, 0], [0, 1]], 4) ∧
    ([[(0 : ℚ), 0], [0, 1]] : Mat) ≠ [[1, 0], [0, 1]] ∧
    (genBlocks [[1, 0], [0, 1]] 2 [[2], [1]]).length = 8 := by decide

/-! ## parseMatrix on generated block text (claim C1) -/

theorem getLastD_of_ne_nil {α : Type} (l : List α) (d d2 : α) (h : l ≠ []) :
    l.getLastD d = l.getLastD d2 := by
  rw [List.getLastD_eq_getLast?, List.getLastD_eq_getLast?,
     List.getLast?_eq_getLast l h]
  rfl

theorem setEntryZ_coe (m : Mat) (r c : ℕ) (hr : 1 ≤ r) (hc : 1 ≤ c) (v : ℚ) :
    setEntryZ m ((r : ℤ) - 1) ((c : ℤ) - 1) v = setEntry m (r - 1) (c - 1) v := by
  rw [setEntryZ, if_pos (by omega)]
  congr 1 <;> omega

theorem intToks_natCast (cols : List ℕ) :
    intToks (cols.map (fun (c : ℕ) => (c : ℚ))) = cols.map (fun (c : ℕ) => (c : ℤ)) := by
  rw [intToks]
  have ht : (cols.map (fun (c : ℕ) => (c : ℚ))).takeWhile (fun q => q.den = 1) =
      cols.map (fun (c : ℕ) => (c : ℚ)) := by
    apply List.takeWhile_eq_self_iff.mpr
    intro q hq
    obtain ⟨c, _, rfl⟩ := List.mem_map.mp hq
    simp [Rat.den_natCast]
  rw [ht, List.map_map]
  apply List.map_congr_left
  intro c _
  simp [Rat.num_natCast]

theorem colIndicesOf_gen (cols : List ℕ) :
    colIndicesOf (.nums (cols.map (fun (c : ℕ) => (c : ℚ)))) = cols.map (fun (c : ℕ) => (c : ℤ)) := by
  rw [colIndicesOf, intToks_natCast]

theorem dataToks_gen (M : Mat) (cols : List ℕ) (r : ℕ) :
    dataToks (genRowLine M cols r) =
      ((r : ℤ), cols.map (fun c => entry M (r - 1) (c - 1))) := by
  rw [genRowLine, dataToks]
  simp [Rat.den_natCast, Rat.num_natCast]

theorem scatter_gen (rz : ℤ) (f : ℕ → ℚ) :
    ∀ (suffix pre : List ℕ) (colIdx : ℤ) (m : Mat),
      scatter ((pre ++ suffix).map (fun (c : ℕ) => (c : ℤ))) rz pre.length colIdx
          (suffix.map f) m =
        some (suffix.foldl (fun acc (c : ℕ) => setEntryZ acc (rz - 1) ((c : ℤ) - 1) (f c)) m,
          if suffix.isEmpty then colIdx else ((suffix.getLastD 0 : ℕ) : ℤ)) := by
  intro suffix
  induction suffix with
  | nil => intro pre colIdx m; simp [scatter]
  | cons c cs ih =>
      intro pre colIdx m
      rw [List.map_cons, scatter]
      have hget : ((pre ++ c :: cs).map (fun (c : ℕ) => (c : ℤ))).get? pre.length
          = some (c : ℤ) := by
        rw [List.get?_eq_getElem?, List.getElem?_map]
        have hcc : (pre ++ c :: cs)[pre.length]? = some c := by
          rw [List.getElem?_append_right (Nat.le_refl _)]
          simp
        rw [hcc]
        rfl
      rw [hget]
      dsimp only
      have hpre : pre ++ c :: cs = (pre ++ [c]) ++ cs := by simp
      have hlen : pre.length + 1 = (pre ++ [c]).length := by simp
      rw [hpre, hlen, ih (pre ++ [c]) (c : ℤ) (setEntryZ m (rz - 1) ((c : ℤ) - 1) (f c))]
      simp only [List.foldl_cons]
      by_cases hcs : cs = []
      · subst hcs
        rfl
      · rw [if_neg (by simp [List.isEmpty_iff, hcs] : ¬cs.isEmpty = true),
           if_neg (by simp : ¬(c :: cs).isEmpty = true)]
        rw [List.getLastD_cons, getLastD_of_ne_nil cs c 0 hcs]

theorem dimsOk_setEntryZ {m : Mat} {D : ℕ} (h : dimsOk m D D) (i j : ℤ) (v : ℚ) :
    dimsOk (setEntryZ m i j v) D D := by
  rw [setEntryZ]
  by_cases hij : 0 ≤ i ∧ 0 ≤ j
  · rw [if_pos hij]; exact dimsOk_setEntry h i.toNat j.toNat v
  · rw [if_neg hij]; exact h

theorem dimsOk_writeRow {m : Mat} {D : ℕ} (M : Mat) (r : ℕ) :
    ∀ (cols : List ℕ), dimsOk m D D → dimsOk (writeRow M cols r m) D D := by
  intro cols
  induction cols generalizing m with
  | nil => intro h; exact h
  | cons c cs ih =>
      intro h
      rw [writeRow, List.foldl_cons]
      exact ih (dimsOk_setEntryZ h _ _ _)

theorem entry_writeRow {D : ℕ} (M : Mat) (r : ℕ) (hr1 : 1 ≤ r) :
    ∀ (cols : List ℕ) (m : Mat), dimsOk m D D →
    (∀ c ∈ cols, 1 ≤ c ∧ c ≤ D) →
    ∀ i j, i < D → j < D →
    entry (writeRow M cols r m) i j =
      if i = r - 1 ∧ j + 1 ∈ cols then entry M i j else entry m i j := by
  intro cols
  induction cols with
  | nil =>
      intro m _ _ i j _ _
      rw [writeRow]
      simp
  | cons c cs ih =>
      intro m hm hcols i j hi hj
      obtain ⟨hc1, hcD⟩ := hcols c (by simp)
      have hcs : ∀ x ∈ cs, 1 ≤ x ∧ x ≤ D := fun x hx => hcols x (by simp [hx])
      rw [writeRow, List.foldl_cons, ← writeRow]
      rw [setEntryZ_coe m r c hr1 hc1]
      have hm1 : dimsOk (setEntry m (r - 1) (c - 1) (entry M (r - 1) (c - 1))) D D :=
        dimsOk_setEntry hm _ _ _
      rw [ih (setEntry m (r - 1) (c - 1) (entry M (r - 1) (c - 1))) hm1 hcs i j hi hj]
      by_cases h1 : i = r - 1 ∧ j + 1 ∈ cs
      · rw [if_pos h1, if_pos ⟨h1.1, by simp [h1.2]⟩]
      · rw [if_neg h1]
        by_cases h2 : i = r - 1 ∧ j + 1 = c
        · have hjc : j = c - 1 := by omega
          have hirc : i = r - 1 := h2.1
          rw [hirc, hjc]
          rw [entry_setEntry_self hm (r - 1) (c - 1) _ (by omega) (by omega)]
          rw [if_pos ⟨rfl, by simp [← hjc, h2.2]⟩]
        · have hne : i ≠ r - 1 ∨ j ≠ c - 1 := by
            by_cases hir : i = r - 1
            · right
              intro hjc
              exact h2 ⟨hir, by omega⟩
            · left; exact hir
          rw [entry_setEntry_other m (r - 1) (c - 1) i j _ hne]
          rw [if_neg ?_]
          intro hcon
          rcases hcon with ⟨hir, hmem⟩
          rcases List.mem_cons.mp hmem with hc | hcs2
          · exact h2 ⟨hir, hc⟩
          · exact h1 ⟨hir, hcs2⟩

theorem writeBlock_rows_spec {D : ℕ} (M : Mat) (cols : List ℕ)
    (hcols : ∀ c ∈ cols, 1 ≤ c ∧ c ≤ D) :
    ∀ (k a : ℕ) (m : Mat), dimsOk m D D → 1 ≤ a →
    dimsOk ((List.range' a k).foldl (fun acc r => writeRow M cols r acc) m) D D ∧
    (∀ i j, i < D → j < D →
      entry ((List.range' a k).foldl (fun acc r => writeRow M cols r acc) m) i j =
        if (a ≤ i + 1 ∧ i + 1 < a + k) ∧ j + 1 ∈ cols then entry M i j else entry m i j) := by
  intro k
  induction k with
  | zero =>
      intro a m hm ha
      refine ⟨hm, fun i j hi hj => ?_⟩
      rw [List.range'_zero, List.foldl_nil, if_neg (by omega)]
  | succ k ih =>
      intro a m hm ha
      rw [List.range'_succ, List.foldl_cons]
      obtain ⟨hd, he⟩ := ih (a + 1) (writeRow M cols a m) (dimsOk_writeRow M a cols hm)
        (by omega)
      refine ⟨hd, fun i j hi hj => ?_⟩
      rw [he i j hi hj]
      rw [entry_writeRow M a ha cols m hm hcols i j hi hj]
      by_cases hmem : j + 1 ∈ cols
      · by_cases h1 : a + 1 ≤ i + 1 ∧ i + 1 < a + 1 + k
        · rw [if_pos ⟨h1, hmem⟩, if_pos ⟨by omega, hmem⟩]
        · rw [if_neg (fun hc => h1 hc.1)]
          by_cases h2 : i = a - 1
          · rw [if_pos ⟨h2, hmem⟩, if_pos ⟨by omega, hmem⟩]
          · rw [if_neg (fun hc => h2 hc.1), if_neg (fun hc => ?_)]
            have := hc.1
            omega
      · rw [if_neg (fun hc => hmem hc.2), if_neg (fun hc => hmem hc.2),
           if_neg (fun hc => hmem hc.2)]

theorem writeBlock_spec {D : ℕ} (M : Mat) (cols : List ℕ)
    (hcols : ∀ c ∈ cols, 1 ≤ c ∧ c ≤ D) (m : Mat) (hm : dimsOk m D D) :
    dimsOk (writeBlock M D cols m) D D ∧
    (∀ i j, i < D → j < D →
      entry (writeBlock M D cols m) i j =
        if j + 1 ∈ cols then entry M i j else entry m i j) := by
  obtain ⟨hd, he⟩ := writeBlock_rows_spec M cols hcols D 1 m hm (by omega)
  rw [writeBlock]
  refine ⟨hd, fun i j hi hj => ?_⟩
  rw [he i j hi hj]
  by_cases hmem : j + 1 ∈ cols
  · rw [if_pos ⟨⟨by omega, by omega⟩, hmem⟩, if_pos hmem]
  · rw [if_neg (fun hc => hmem hc.2), if_neg hmem]

theorem writeBlocks_spec {D : ℕ} (M : Mat) :
    ∀ (blocks : List (List ℕ)) (m : Mat), dimsOk m D D →
    (∀ b ∈ blocks, ∀ c ∈ b, 1 ≤ c ∧ c ≤ D) →
    dimsOk (writeBlocks M D blocks m) D D ∧
    (∀ i j, i < D → j < D →
      entry (writeBlocks M D blocks m) i j =
        if j + 1 ∈ blocks.flatten then entry M i j else entry m i j) := by
  intro blocks
  induction blocks with
  | nil =>
      intro m hm _
      refine ⟨hm, fun i j hi hj => ?_⟩
      rw [writeBlocks, List.foldl_nil, List.flatten_nil, if_neg (by simp)]
  | cons b bs ih =>
      intro m hm hb
      rw [writeBlocks, List.foldl_cons, ← writeBlocks]
      have hbb : ∀ c ∈ b, 1 ≤ c ∧ c ≤ D := hb b (by simp)
      have hbs : ∀ x ∈ bs, ∀ c ∈ x, 1 ≤ c ∧ c ≤ D := fun x hx => hb x (by simp [hx])
      obtain ⟨hd1, he1⟩ := writeBlock_spec M b hbb m hm
      obtain ⟨hd2, he2⟩ := ih (writeBlock M D b m) hd1 hbs
      refine ⟨hd2, fun i j hi hj => ?_⟩
      rw [he2 i j hi hj, List.flatten_cons]
      by_cases h1 : j + 1 ∈ bs.flatten
      · rw [if_pos h1, if_pos (List.mem_append_right _ h1)]
      · rw [if_neg h1, he1 i j hi hj]
        by_cases h2 : j + 1 ∈ b
        · rw [if_pos h2, if_pos (List.mem_append_left _ h2)]
        · rw [if_neg h2, if_neg (fun hc => ?_)]
          rcases List.mem_append.mp hc with h | h
          · exact h2 h
          · exact h1 h

/-- A sequence of blocks covering all columns writes the whole reference
matrix over the zero matrix. -/
theorem writeBlocks_zero_eq {D : ℕ} (M : Mat) (blocks : List (List ℕ))
    (hM : dimsOk M D D)
    (hb : ∀ b ∈ blocks, ∀ c ∈ b, 1 ≤ c ∧ c ≤ D)
    (hcover : ∀ j, j < D → j + 1 ∈ blocks.flatten) :
    writeBlocks M D blocks (zeroMat D) = M := by
  obtain ⟨hd, he⟩ := writeBlocks_spec M blocks (zeroMat D) (dimsOk_zeroMat D) hb
  apply mat_ext hd hM
  intro i hi j hj
  rw [he i j hi hj, if_pos (hcover j hj)]

theorem parseMatrixAux_dataRow (D : ℕ) (M : Mat) (cols : List ℕ) (r : ℕ)
    (hc : cols ≠ []) (rest : List Line) (colIdx : ℤ) (m : Mat) :
    parseMatrixAux D (genRowLine M cols r :: rest)
        (cols.map (fun (c : ℕ) => (c : ℤ))) colIdx m =
      if r = D ∧ cols.getLastD 0 = D then some (writeRow M cols r m, 1)
      else
        match parseMatrixAux D rest (cols.map (fun (c : ℕ) => (c : ℤ)))
            ((cols.getLastD 0 : ℕ) : ℤ) (writeRow M cols r m) with
        | some (mm, k) => some (mm, k + 1)
        | none => none := by
  rw [parseMatrixAux.eq_def]
  dsimp only
  rw [if_neg (by simp [genRowLine] : ¬genRowLine M cols r = Line.blank)]
  rw [dataToks_gen]
  dsimp only
  have hs := scatter_gen (r : ℤ) (fun c => entry M (r - 1) (c - 1)) cols [] colIdx m
  simp only [List.nil_append, List.length_nil] at hs
  rw [if_neg (by simp [List.isEmpty_iff, hc] : ¬cols.isEmpty = true)] at hs
  rw [hs]
  dsimp only
  simp only [writeRow, Nat.cast_inj]

theorem parseMatrixAux_genRows (D : ℕ) (M : Mat) (cols : List ℕ) (hc : cols ≠ []) :
    ∀ (k a : ℕ), a + k = D + 1 → 1 ≤ a → 1 ≤ k →
    ∀ (rest : List Line) (colIdx : ℤ) (m : Mat),
    parseMatrixAux D ((List.range' a k).map (genRowLine M cols) ++ rest)
        (cols.map (fun (c : ℕ) => (c : ℤ))) colIdx m =
      if cols.getLastD 0 = D then
        some ((List.range' a k).foldl (fun acc r => writeRow M cols r acc) m, k)
      else
        match parseMatrixAux D rest (cols.map (fun (c : ℕ) => (c : ℤ)))
            ((cols.getLastD 0 : ℕ) : ℤ)
            ((List.range' a k).foldl (fun acc r => writeRow M cols r acc) m) with
        | some (mm, kk) => some (mm, kk + k)
        | none => none := by
  intro k
  induction k with
  | zero => intro a _ _ h1; omega
  | succ k ih =>
      intro a hak ha _ rest colIdx m
      rw [List.range'_succ, List.map_cons, List.cons_append]
      by_cases hk : k = 0
      · subst hk
        have haD : a = D := by omega
        rw [parseMatrixAux_dataRow D M cols a hc]
        rw [List.range'_zero, List.map_nil, List.nil_append]
        simp only [List.foldl_cons, List.foldl_nil]
        rw [haD]
        simp only [eq_self_iff_true, true_and]
      · rw [parseMatrixAux_dataRow D M cols a hc]
        rw [if_neg (fun hcon => absurd hcon.1 (by omega))]
        rw [ih (a + 1) (by omega) (by omega) (by omega) rest
           ((cols.getLastD 0 : ℕ) : ℤ) (writeRow M cols a m)]
        simp only [List.foldl_cons]
        by_cases hlast : cols.getLastD 0 = D
        · rw [if_pos hlast, if_pos hlast]
        · rw [if_neg hlast, if_neg hlast]
          cases hpm : parseMatrixAux D rest (cols.map (fun (c : ℕ) => (c : ℤ)))
              ((cols.getLastD 0 : ℕ) : ℤ)
              ((List.range' (a + 1) k).foldl (fun acc r => writeRow M cols r acc)
                (writeRow M cols a m)) with
          | none => rfl
          | some p =>
              obtain ⟨mm, kk⟩ := p
              dsimp only
              rw [Nat.add_assoc]

theorem parseMatrixAux_blankStart (D : ℕ) (colLine dataLine : Line)
    (hd : dataLine ≠ .blank) (rest3 : List Line) (cols0 : List ℤ) (colIdx : ℤ) (m : Mat) :
    parseMatrixAux D (.blank :: colLine :: dataLine :: rest3) cols0 colIdx m =
      match parseMatrixAux D (dataLine :: rest3) (colIndicesOf colLine) colIdx m with
      | some (mm, k) => some (mm, k + 2)
      | none => none := by
  conv =>
    lhs
    rw [parseMatrixAux.eq_def]
  conv =>
    rhs
    rw [parseMatrixAux.eq_def]
  dsimp only
  rw [if_pos rfl, if_neg hd, if_neg hd]
  cases hsc : scatter (colIndicesOf colLine) (dataToks dataLine).1 0 colIdx
      (dataToks dataLine).2 m with
  | none => rfl
  | some p =>
      obtain ⟨m2, colIndex2⟩ := p
      dsimp only
      by_cases hcond : (dataToks dataLine).1 = (D : ℤ) ∧ colIndex2 = (D : ℤ)
      · rw [if_pos hcond, if_pos hcond]
      · rw [if_neg hcond, if_neg hcond]
        cases hpm : parseMatrixAux D rest3 (colIndicesOf colLine) colIndex2 m2 with
        | none => rfl
        | some q =>
            obtain ⟨mm, k⟩ := q
            rfl

theorem genBlock_length (M : Mat) (D : ℕ) (cols : List ℕ) :
    (genBlock M D cols).length = D + 2 := by
  simp [genBlock]

theorem parseMatrixAux_genBlock (D : ℕ) (M : Mat) (cols : List ℕ) (hc : cols ≠ [])
    (hD : 1 ≤ D) (rest : List Line) (cols0 : List ℤ) (colIdx : ℤ) (m : Mat) :
    parseMatrixAux D (genBlock M D cols ++ rest) cols0 colIdx m =
      if cols.getLastD 0 = D then some (writeBlock M D cols m, D + 2)
      else
        match parseMatrixAux D rest (cols.map (fun (c : ℕ) => (c : ℤ)))
            ((cols.getLastD 0 : ℕ) : ℤ) (writeBlock M D cols m) with
        | some (mm, kk) => some (mm, kk + (D + 2))
        | none => none := by
  obtain ⟨k, rfl⟩ : ∃ k, D = k + 1 := ⟨D - 1, by omega⟩
  rw [genBlock, List.range'_succ, List.map_cons]
  rw [List.cons_append, List.cons_append, List.cons_append]
  rw [parseMatrixAux_blankStart (k + 1) (.nums (cols.map (fun (c : ℕ) => (c : ℚ))))
     (genRowLine M cols 1) (by simp [genRowLine]) _ cols0 colIdx m]
  rw [colIndicesOf_gen]
  have hrows := parseMatrixAux_genRows (k + 1) M cols hc (k + 1) 1 (by omega) (by omega)
    (by omega) rest colIdx m
  rw [List.range'_succ, List.map_cons, List.cons_append] at hrows
  rw [hrows]
  rw [writeBlock, List.range'_succ]
  by_cases hlast : cols.getLastD 0 = k + 1
  · rw [if_pos hlast, if_pos hlast]
  · rw [if_neg hlast, if_neg hlast]
    cases hpm : parseMatrixAux (k + 1) rest (cols.map (fun (c : ℕ) => (c : ℤ)))
        ((cols.getLastD 0 : ℕ) : ℤ)
        ((1 :: List.range' 2 k).foldl (fun acc r => writeRow M cols r acc) m) with
    | none => rfl
    | some p =>
        obtain ⟨mm, kk⟩ := p
        dsimp only
        rw [show kk + (k + 1) + 2 = kk + (k + 1 + 2) from by omega]

theorem genBlocks_cons (M : Mat) (D : ℕ) (b : List ℕ) (bs : List (List ℕ)) :
    genBlocks M D (b :: bs) = genBlock M D b ++ genBlocks M D bs := by
  simp [genBlocks]

theorem writeBlocks_cons (M : Mat) (D : ℕ) (b : List ℕ) (bs : List (List ℕ)) (m : Mat) :
    writeBlocks M D (b :: bs) m = writeBlocks M D bs (writeBlock M D b m) := by
  simp [writeBlocks]

theorem getD_mem {α : Type} (l : List α) (n : ℕ) (d : α) (h : n < l.length) :
    l.getD n d ∈ l := by
  rw [List.getD_eq_getElem l d h]
  exact List.getElem_mem h

theorem getLastD_mem {α : Type} (l : List α) (d : α) (h : l ≠ []) : l.getLastD d ∈ l := by
  rw [List.getLastD_eq_getLast?, List.getLast?_eq_getLast l h]
  exact List.getLast_mem h

/-- Parsing the full generated block sequence: every block but the last is a
continuation block (its last column is not `D`), the last block terminates the
reader exactly on its final row line, and the accumulated writes are
`writeBlocks`. -/
theorem parseMatrixAux_genBlocks (D : ℕ) (M : Mat) (hD : 1 ≤ D) :
    ∀ (blocks : List (List ℕ)), blocks ≠ [] →
    (∀ b ∈ blocks, b ≠ []) →
    (∀ i, i + 1 < blocks.length → (blocks.getD i []).getLastD 0 ≠ D) →
    (blocks.getLastD []).getLastD 0 = D →
    ∀ (rest : List Line) (cols0 : List ℤ) (colIdx : ℤ) (m : Mat),
    parseMatrixAux D (genBlocks M D blocks ++ rest) cols0 colIdx m =
      some (writeBlocks M D blocks m, (genBlocks M D blocks).length) := by
  intro blocks
  induction blocks with
  | nil => intro h; exact absurd rfl h
  | cons b bs ih =>
      intro _ hbne hmid hlast rest cols0 colIdx m
      have hb : b ≠ [] := hbne b (by simp)
      rw [genBlocks_cons, List.append_assoc]
      cases bs with
      | nil =>
          have hlb : b.getLastD 0 = D := by
            rw [List.getLastD_cons] at hlast
            simpa using hlast
          rw [parseMatrixAux_genBlock D M b hb hD _ cols0 colIdx m, if_pos hlb]
          rw [writeBlocks_cons, writeBlocks, List.foldl_nil]
          simp [genBlocks, genBlock_length]
      | cons b2 bs2 =>
          have hlb : b.getLastD 0 ≠ D := by
            have := hmid 0 (by simp)
            simpa using this
          rw [parseMatrixAux_genBlock D M b hb hD _ cols0 colIdx m, if_neg hlb]
          have hlast2 : ((b2 :: bs2).getLastD []).getLastD 0 = D := by
            rw [List.getLastD_cons] at hlast
            rw [getLastD_of_ne_nil (b2 :: bs2) b [] (by simp)] at hlast
            exact hlast
          have hmid2 : ∀ i, i + 1 < (b2 :: bs2).length →
              ((b2 :: bs2).getD i []).getLastD 0 ≠ D := by
            intro i hi
            have := hmid (i + 1) (by simpa using Nat.succ_lt_succ hi)
            rwa [List.getD_cons_succ] at this
          rw [ih (by simp) (fun x hx => hbne x (by simp [hx])) hmid2 hlast2 rest
             (b.map (fun (c : ℕ) => (c : ℤ))) ((b.getLastD 0 : ℕ) : ℤ) (writeBlock M D b m)]
          dsimp only
          rw [writeBlocks_cons M D b (b2 :: bs2) m]
          rw [List.length_append, genBlock_length]
          rw [Nat.add_comm (D + 2) ((genBlocks M D (b2 :: bs2)).length)]

/-- Round trip for a well-formed blocked printing followed by any remaining
stream: the reader consumes exactly the generated block text, reproduces the
reference matrix, and leaves the rest of the stream untouched. -/
theorem parseMatrix_genBlocks_WF (D : ℕ) (M : Mat) (blocks : List (List ℕ))
    (hM : dimsOk M D D) (hne : blocks ≠ []) (hbne : ∀ b ∈ blocks, b ≠ [])
    (hperm : blocks.flatten.Perm (List.range' 1 D))
    (hlast : (blocks.getLastD []).getLastD 0 = D) (rest : List Line) :
    parseMatrix D (genBlocks M D blocks ++ rest) =
      some (M, (genBlocks M D blocks).length) := by
  have hbound : ∀ b ∈ blocks, ∀ c ∈ b, 1 ≤ c ∧ c ≤ D := by
    intro b hbmem c hcmem
    have : c ∈ blocks.flatten := List.mem_flatten.mpr ⟨b, hbmem, hcmem⟩
    have := (List.mem_range'_1).mp (hperm.mem_iff.mp this)
    omega
  have hD : 1 ≤ D := by
    obtain ⟨b, hbmem⟩ := List.exists_mem_of_ne_nil blocks hne
    obtain ⟨c, hcmem⟩ := List.exists_mem_of_ne_nil b (hbne b hbmem)
    have := hbound b hbmem c hcmem
    omega
  have hnodup : blocks.flatten.Nodup :=
    (hperm.nodup_iff).mpr (by apply List.nodup_range'; omega)
  have hpair := (List.nodup_flatten.mp (by simpa using hnodup)).2
  have hmid : ∀ i, i + 1 < blocks.length → (blocks.getD i []).getLastD 0 ≠ D := by
    intro i hi hcon
    have hilen : i < blocks.length := by omega
    have hlastlen : blocks.length - 1 < blocks.length := by omega
    have hblocki : blocks.getD i [] = blocks[i] := List.getD_eq_getElem blocks [] hilen
    have hbi_ne : blocks[i] ≠ [] := hbne _ (List.getElem_mem hilen)
    have hDmem_i : D ∈ blocks[i] := by
      rw [← hcon, hblocki]
      exact getLastD_mem blocks[i] 0 hbi_ne
    have hblast : blocks.getLastD [] = blocks[blocks.length - 1] := by
      rw [List.getLastD_eq_getLast?, List.getLast?_eq_getLast blocks hne,
         List.getLast_eq_getElem]
      rfl
    have hblast_ne : blocks[blocks.length - 1] ≠ [] :=
      hbne _ (List.getElem_mem hlastlen)
    have hDmem_last : D ∈ blocks[blocks.length - 1] := by
      rw [← hlast, hblast]
      exact getLastD_mem blocks[blocks.length - 1] 0 hblast_ne
    have hdisj : List.Disjoint blocks[i] blocks[blocks.length - 1] :=
      List.pairwise_iff_getElem.mp hpair i (blocks.length - 1) hilen hlastlen (by omega)
    exact hdisj hDmem_i hDmem_last
  have hcover : ∀ j, j < D → j + 1 ∈ blocks.flatten := by
    intro j hj
    exact hperm.mem_iff.mpr ((List.mem_range'_1).mpr ⟨by omega, by omega⟩)
  rw [parseMatrix]
  rw [parseMatrixAux_genBlocks D M hD blocks hne hbne hmid hlast rest [] 0 (zeroMat D)]
  rw [writeBlocks_zero_eq M blocks hM hbound hcover]

/-- C1, amended: the round trip holds for every partition of the columns into
blocks whose final block ends with column `D` (equivalently, the block that
prints the bottom-right corner is the final one) — exactly the condition the
reader's termination test requires.  The reader consumes the whole generated
text and reproduces the reference matrix element-wise. -/
theorem c1_blockReader_roundtrip (D : ℕ) (M : Mat) (blocks : List (List ℕ))
    (hM : dimsOk M D D) (hne : blocks ≠ []) (hbne : ∀ b ∈ blocks, b ≠ [])
    (hperm : blocks.flatten.Perm (List.range' 1 D))
    (hlast : (blocks.getLastD []).getLastD 0 = D) :
    parseMatrix D (genBlocks M D blocks) = some (M, (genBlocks M D blocks).length) := by
  have h := parseMatrix_genBlocks_WF D M blocks hM hne hbne hperm hlast []
  rwa [List.append_nil] at h

theorem c1_blockReader_roundtrip_witness :
    parseMatrix 2 (genBlocks [[1, 2], [3, 4]] 2 [[1], [2]]) = some ([[1, 2], [3, 4]], 8) := by
  have h := c1_blockReader_roundtrip 2 [[1, 2], [3, 4]] [[1], [2]] (by decide) (by decide)
    (by decide) (by decide) (by decide)
  simpa using h

/-! ## parseContent on generated matrix sections (claim C3) -/

theorem genBlock_lines (M : Mat) (D : ℕ) (cols : List ℕ) :
    ∀ l ∈ genBlock M D cols, l = Line.blank ∨ ∃ t, l = Line.nums t := by
  intro l hl
  rw [genBlock] at hl
  rcases List.mem_cons.mp hl with h | hl2
  · exact Or.inl h
  rcases List.mem_cons.mp hl2 with h | hl3
  · exact Or.inr ⟨_, h⟩
  obtain ⟨r, _, rfl⟩ := List.mem_map.mp hl3
  exact Or.inr ⟨_, rfl⟩

theorem genBlocks_lines (M : Mat) (D : ℕ) (blocks : List (List ℕ)) :
    ∀ l ∈ genBlocks M D blocks, l = Line.blank ∨ ∃ t, l = Line.nums t := by
  intro l hl
  rw [genBlocks] at hl
  obtain ⟨ls, hls, hlmem⟩ := List.mem_flatten.mp hl
  obtain ⟨cols, _, rfl⟩ := List.mem_map.mp hls
  exact genBlock_lines M D cols l hlmem

/-- The scanner passes over blank and numeric lines: they contain no marker. -/
theorem parseContent_skip (ncells : ℤ) :
    ∀ (ls : List Line), (∀ l ∈ ls, l = Line.blank ∨ ∃ t, l = Line.nums t) →
    ∀ (rest : List Line) (st : ScanState),
    parseContent ncells (ls ++ rest) st = parseContent ncells rest st := by
  intro ls
  induction ls with
  | nil => intro _ rest st; rw [List.nil_append]
  | cons l ls ih =>
      intro h rest st
      have htail := fun x hx => h x (List.mem_cons_of_mem l hx)
      rcases h l (by simp) with hb | ⟨t, ht⟩
      · subst hb
        rw [List.cons_append, parseContent.eq_def]
        dsimp only
        exact ih htail rest st
      · subst ht
        rw [List.cons_append, parseContent.eq_def]
        dsimp only
        exact ih htail rest st

theorem acceptedSections_cons_pos (ncells : ℤ) (s : MatSection) (ss : List MatSection)
    (h : s.cellIndex ≤ ncells) :
    acceptedSections ncells (s :: ss) = s :: acceptedSections ncells ss := by
  simp [acceptedSections, List.filter_cons, h]

theorem acceptedSections_cons_neg (ncells : ℤ) (s : MatSection) (ss : List MatSection)
    (h : ¬s.cellIndex ≤ ncells) :
    acceptedSections ncells (s :: ss) = acceptedSections ncells ss := by
  simp [acceptedSections, List.filter_cons, h]

/-- C3: sections with cell index above the caller-supplied limit contribute no
slice to any stack and no translation vector, while their block text is
consumed by the scanner itself, so every subsequently accepted section —
after any number of rejected ones — is parsed correctly: scanning a stream of
well-formed OVERLAP/FOCK sections produces exactly the accepted sections'
contributions, in order. -/
theorem c3_cell_limit_filtering (ncells : ℤ) (D : ℕ) :
    ∀ (secs : List MatSection) (st : ScanState),
    st.norbitals = (D : ℤ) →
    (∀ s ∈ secs, SectionWF D s) →
    parseContent ncells ((secs.map (genSection D)).flatten) st =
      .ok ((acceptedSections ncells secs).foldl applySection st) := by
  intro secs
  induction secs with
  | nil =>
      intro st _ _
      rw [List.map_nil, List.flatten_nil, acceptedSections, List.filter_nil]
      rw [parseContent.eq_def]
      rfl
  | cons s ss ih =>
      intro st hnorb hwf
      obtain ⟨hM, hne, hbne, hperm, hlast⟩ := hwf s (by simp)
      have hwfss : ∀ x ∈ ss, SectionWF D x := fun x hx => hwf x (by simp [hx])
      have htoNat : st.norbitals.toNat = D := by rw [hnorb]; exact Int.toNat_natCast D
      have hparse := parseMatrix_genBlocks_WF D s.M s.blocks hM hne hbne hperm hlast
        ((ss.map (genSection D)).flatten)
      rw [List.map_cons, List.flatten_cons, genSection]
      cases hfk : s.isFock with
      | false =>
          rw [if_neg (by simp [hfk])]
          rw [List.cons_append]
          simp only [parseContent]
          by_cases hacc : s.cellIndex ≤ ncells
          · rw [if_pos hacc, htoNat, hparse]
            dsimp only
            rw [List.drop_left]
            rw [ih _ (by simpa using hnorb) hwfss]
            rw [acceptedSections_cons_pos ncells s ss hacc, List.foldl_cons]
            rw [applySection, if_neg (by simp [hfk])]
          · rw [if_neg hacc]
            rw [parseContent_skip ncells (genBlocks s.M D s.blocks)
               (genBlocks_lines s.M D s.blocks)]
            rw [ih st hnorb hwfss]
            rw [acceptedSections_cons_neg ncells s ss hacc]
      | true =>
          rw [if_pos (by simp [hfk])]
          rw [List.cons_append]
          simp only [parseContent]
          by_cases hacc : s.cellIndex ≤ ncells
          · rw [if_pos hacc, htoNat, hparse]
            dsimp only
            rw [List.drop_left]
            rw [acceptedSections_cons_pos ncells s ss hacc, List.foldl_cons]
            by_cases hmag : st.MAGNETIC_FLAG = true
            · by_cases halp : st.alpha_electrons = true
              · rw [if_pos hmag, if_pos halp]
                rw [ih _ (by simpa using hnorb) hwfss]
                rw [applySection, if_pos (by simp [hfk]), if_pos hmag, if_pos halp]
              · rw [if_pos hmag, if_neg halp]
                rw [ih _ (by simpa using hnorb) hwfss]
                rw [applySection, if_pos (by simp [hfk]), if_pos hmag, if_neg halp]
            · by_cases hsoc : st.SOC_FLAG = true
              · rw [if_neg hmag, if_pos hsoc]
                rw [ih _ hnorb hwfss]
                rw [applySection, if_pos (by simp [hfk]), if_neg hmag, if_pos hsoc]
              · rw [if_neg hmag, if_neg hsoc]
                rw [ih _ (by simpa using hnorb) hwfss]
                rw [applySection, if_pos (by simp [hfk]), if_neg hmag, if_neg hsoc]
          · rw [if_neg hacc]
            rw [parseContent_skip ncells (genBlocks s.M D s.blocks)
               (genBlocks_lines s.M D s.blocks)]
            rw [ih st hnorb hwfss]
            rw [acceptedSections_cons_neg ncells s ss hacc]

theorem c3_cell_limit_filtering_witness :
    parseContent 1 ((([⟨false, 2, 0, 0, 0, [[7]], [[1]]⟩, ⟨false, 1, 1, 0, 0, [[5]], [[1]]⟩,
        ⟨true, 1, 0, 0, 0, [[9]], [[1]]⟩] : List MatSection).map (genSection 1)).flatten)
      { initState with norbitals := 1, ndim := 1, bravaisLattice := [⟨1, 0, 0⟩] } =
      .ok ((acceptedSections 1 [⟨false, 2, 0, 0, 0, [[7]], [[1]]⟩,
        ⟨false, 1, 1, 0, 0, [[5]], [[1]]⟩, ⟨true, 1, 0, 0, 0, [[9]], [[1]]⟩]).foldl
          applySection
          { initState with norbitals := 1, ndim := 1, bravaisLattice := [⟨1, 0, 0⟩] }) :=
  c3_cell_limit_filtering 1 1 _ _ rfl (by decide)

/-! ## Translation-vector / overlap-slice alignment (claim C10) -/

/-- Invariant of the scan: a translation vector is appended exactly when an
overlap matrix is accepted (both in the OVERLAP branch), and no other branch —
the FOCK branch included — touches either accumulator, so their lengths stay
equal throughout. -/
theorem parseContent_bv_ov (ncells : ℤ) (lines : List Line) (st : ScanState) :
    ∀ st', parseContent ncells lines st = .ok st' →
    st.bravaisVectors.length = st.overlapMatrices.length →
    st'.bravaisVectors.length = st'.overlapMatrices.length := by
  induction lines, st using parseContent.induct ncells with
  | case1 st =>
      intro st' hok hinv
      rw [parseContent.eq_def] at hok
      cases hok
      exact hinv
  | case2 n rest st ih =>
      intro st' hok hinv
      rw [parseContent.eq_def] at hok
      exact ih st' hok hinv
  | case3 n rest st ih =>
      intro st' hok hinv
      rw [parseContent.eq_def] at hok
      exact ih st' hok hinv
  | case4 n rest st ih =>
      intro st' hok hinv
      rw [parseContent.eq_def] at hok
      exact ih st' hok hinv
  | case5 rest st h =>
      intro st' hok hinv
      cases rest with
      | nil => simp [parseContent, h] at hok
      | cons l rest2 => simp [parseContent, h] at hok
  | case6 st h =>
      intro st' hok hinv
      simp [parseContent, h] at hok
  | case7 st h colLine rest2 htake =>
      intro st' hok hinv
      simp [parseContent, h, htake] at hok
  | case8 st h colLine rest2 recs htake res ih =>
      intro st' hok hinv
      simp only [parseContent, h, htake] at hok
      exact ih st' hok hinv
  | case9 ci cx cy cz rest st hci hpm =>
      intro st' hok hinv
      simp [parseContent, hci, hpm] at hok
  | case10 ci cx cy cz rest st hci m k hpm ih =>
      intro st' hok hinv
      simp only [parseContent, hci, hpm] at hok
      exact ih st' hok (by simp [hinv])
  | case11 ci cx cy cz rest st hci ih =>
      intro st' hok hinv
      simp only [parseContent, hci] at hok
      exact ih st' hok hinv
  | case12 rest st ih =>
      intro st' hok hinv
      rw [parseContent.eq_def] at hok
      exact ih st' hok hinv
  | case13 rest st ih =>
      intro st' hok hinv
      rw [parseContent.eq_def] at hok
      exact ih st' hok hinv
  | case14 rest st ih =>
      intro st' hok hinv
      rw [parseContent.eq_def] at hok
      exact ih st' hok hinv
  | case15 ci cx cy cz rest st hci hpm =>
      intro st' hok hinv
      simp [parseContent, hci, hpm] at hok
  | case16 ci cx cy cz rest st hci m k hpm hmag halp ih =>
      intro st' hok hinv
      simp only [parseContent, hci, hpm, if_true] at hok
      rw [if_pos hmag, if_pos halp] at hok
      exact ih st' hok hinv
  | case17 ci cx cy cz rest st hci m k hpm hmag halp ih =>
      intro st' hok hinv
      simp only [parseContent, hci, hpm, if_true] at hok
      rw [if_pos hmag, if_neg halp] at hok
      exact ih st' hok hinv
  | case18 ci cx cy cz rest st hci m k hpm hmag hsoc ih =>
      intro st' hok hinv
      simp only [parseContent, hci, hpm, if_true] at hok
      rw [if_neg hmag, if_pos hsoc] at hok
      exact ih st' hok hinv
  | case19 ci cx cy cz rest st hci m k hpm hmag hsoc ih =>
      intro st' hok hinv
      simp only [parseContent, hci, hpm, if_true] at hok
      rw [if_neg hmag, if_neg hsoc] at hok
      exact ih st' hok hinv
  | case20 ci cx cy cz rest st hci ih =>
      intro st' hok hinv
      simp only [parseContent, hci] at hok
      exact ih st' hok hinv
  | case21 head rest st hn1 hn2 hn3 hn4 hn5 hn6 hn7 hn8 hn9 ih =>
      intro st' hok hinv
      cases head with
      | natomsLine n => exact absurd rfl (hn1 n)
      | norbitalsLine n => exact absurd rfl (hn2 n)
      | nelectronsLine n => exact absurd rfl (hn3 n)
      | atomShell => exact absurd rfl hn4
      | overlapHdr a b c d => exact absurd rfl (hn5 a b c d)
      | socLine => exact absurd rfl hn6
      | magneticLine => exact absurd rfl hn7
      | betaLine => exact absurd rfl hn8
      | fockHdr a b c d => exact absurd rfl (hn9 a b c d)
      | blank =>
          rw [parseContent.eq_def] at hok
          exact ih st' hok hinv
      | nums t =>
          rw [parseContent.eq_def] at hok
          exact ih st' hok hinv
      | atomRecord a b c d e f g =>
          rw [parseContent.eq_def] at hok
          exact ih st' hok hinv
      | other =>
          rw [parseContent.eq_def] at hok
          exact ih st' hok hinv

/-- C10: throughout the scan and in the final non-magnetic record, the number
of stored translation vectors equals the number of overlap slices — a vector
is appended exactly when an overlap matrix is accepted, and the FOCK branch
never appends one. -/
theorem c10_vector_overlap_alignment (ncells : ℤ) (lines : List Line) (st st' : ScanState)
    (hok : parseContent ncells lines st = .ok st')
    (hinv : st.bravaisVectors.length = st.overlapMatrices.length) :
    st'.bravaisVectors.length = st'.overlapMatrices.length ∧
    (st'.MAGNETIC_FLAG = false → st'.SOC_FLAG = false →
      ∀ orbs info, mapContent st' orbs = some info →
        info.bravaisVectors.length = info.overlap.length) := by
  have h1 := parseContent_bv_ov ncells lines st st' hok hinv
  refine ⟨h1, fun hmag hsoc orbs info hmap => ?_⟩
  simp only [mapContent] at hmap
  rw [if_neg (by simp [hsoc]), if_neg (by simp [hmag])] at hmap
  cases hmap
  exact h1

theorem c10_vector_overlap_alignment_witness :
    initState.bravaisVectors.length = initState.overlapMatrices.length ∧
    (initState.MAGNETIC_FLAG = false → initState.SOC_FLAG = false →
      ∀ orbs info, mapContent initState orbs = some info →
        info.bravaisVectors.length = info.overlap.length) :=
  c10_vector_overlap_alignment 7 [] initState initState (by rw [parseContent.eq_def]) rfl

/-! ## Kronecker assembly lemmas (claim C5) -/

theorem flatten_length_uniform {α : Type} (k : ℕ) :
    ∀ (L : List (List α)), (∀ l ∈ L, l.length = k) → L.flatten.length = k * L.length := by
  intro L
  induction L with
  | nil => intro _; simp
  | cons l L ih =>
      intro h
      rw [List.flatten_cons, List.length_append, h l (by simp),
         ih (fun x hx => h x (by simp [hx]))]
      simp [Nat.mul_succ]
      omega

theorem flatten_getD_uniform {α : Type} (dflt : α) (k : ℕ) :
    ∀ (L : List (List α)), (∀ l ∈ L, l.length = k) → ∀ (i t : ℕ), t < k →
    L.flatten.getD (k * i + t) dflt = (L.getD i []).getD t dflt := by
  intro L
  induction L with
  | nil => intro _ i t _; simp
  | cons l L ih =>
      intro h i t ht
      have hl : l.length = k := h l (by simp)
      rw [List.flatten_cons]
      cases i with
      | zero =>
          rw [Nat.mul_zero, Nat.zero_add]
          rw [List.getD_eq_getElem?_getD, List.getElem?_append_left (by omega),
             ← List.getD_eq_getElem?_getD]
          rfl
      | succ i =>
          have hidx : k * (i + 1) + t = l.length + (k * i + t) := by
            rw [hl]; ring
          rw [hidx, List.getD_eq_getElem?_getD]
          rw [List.getElem?_append_right (by omega)]
          rw [show l.length + (k * i + t) - l.length = k * i + t from by omega]
          rw [← List.getD_eq_getElem?_getD,
             ih (fun x hx => h x (by simp [hx])) i t ht]
          rfl

theorem kron_row_lengths {d p q : ℕ} (A B : Mat) (hA : dimsOk A d d) (hB : dimsOk B p q) :
    ∀ row ∈ kron A B, row.length = q * d := by
  intro row hrow
  rw [kron] at hrow
  obtain ⟨chunk, hchunk, hrowmem⟩ := List.mem_flatten.mp hrow
  obtain ⟨ar, harmem, rfl⟩ := List.mem_map.mp hchunk
  obtain ⟨br, hbrmem, rfl⟩ := List.mem_map.mp hrowmem
  have har : ar.length = d := by
    obtain ⟨iar, hiar, hget⟩ := List.mem_iff_getElem.mp harmem
    have hiard : iar < d := by rw [hA.1] at hiar; exact hiar
    have := hA.2 iar hiard
    rw [List.getD_eq_getElem A [] hiar, hget] at this
    exact this
  have hbr : br.length = q := by
    obtain ⟨ibr, hibr, hget⟩ := List.mem_iff_getElem.mp hbrmem
    have := hB.2 ibr (by rw [hB.1] at hibr; omega)
    rw [List.getD_eq_getElem B [] hibr, hget] at this
    exact this
  rw [flatten_length_uniform q]
  · simp [har]
  · intro x hx
    obtain ⟨a, _, rfl⟩ := List.mem_map.mp hx
    simp [hbr]

theorem dims_kron {d p q : ℕ} (A B : Mat) (hA : dimsOk A d d) (hB : dimsOk B p q) :
    dimsOk (kron A B) (p * d) (q * d) := by
  have hchunks : ∀ c ∈ A.map (fun ar => B.map
      (fun br => (ar.map (fun a => br.map (fun b => a * b))).flatten)), c.length = p := by
    intro c hc
    obtain ⟨ar, _, rfl⟩ := List.mem_map.mp hc
    simp [hB.1]
  constructor
  · rw [kron, flatten_length_uniform p _ hchunks]
    simp [hA.1]
  · intro k hkk
    have hrow : (kron A B).getD k [] ∈ kron A B := by
      apply getD_mem
      rw [kron, flatten_length_uniform p _ hchunks]
      simp [hA.1]
      omega
    exact kron_row_lengths A B hA hB _ hrow

theorem entry_kron {d p q : ℕ} (A B : Mat) (hA : dimsOk A d d) (hB : dimsOk B p q)
    (i j s t : ℕ) (hi : i < d) (hj : j < d) (hs : s < p) (ht : t < q) :
    entry (kron A B) (p * i + s) (q * j + t) = entry A i j * entry B s t := by
  have hchunks : ∀ c ∈ A.map (fun ar => B.map
      (fun br => (ar.map (fun a => br.map (fun b => a * b))).flatten)), c.length = p := by
    intro c hc
    obtain ⟨ar, _, rfl⟩ := List.mem_map.mp hc
    simp [hB.1]
  rw [entry, kron]
  rw [flatten_getD_uniform [] p _ hchunks i s hs]
  have hrowA : (A.map (fun ar => B.map
      (fun br => (ar.map (fun a => br.map (fun b => a * b))).flatten))).getD i [] =
      B.map (fun br => ((A.getD i []).map (fun a => br.map (fun b => a * b))).flatten) := by
    have hiA : i < A.length := by rw [hA.1]; omega
    rw [List.getD_eq_getElem?_getD, List.getElem?_map, List.getElem?_eq_getElem hiA]
    rw [List.getD_eq_getElem A [] hiA]
    rfl
  rw [hrowA]
  have hsB : s < B.length := by rw [hB.1]; omega
  have hrowB : (B.map (fun br =>
      ((A.getD i []).map (fun a => br.map (fun b => a * b))).flatten)).getD s [] =
      ((A.getD i []).map (fun a => (B.getD s []).map (fun b => a * b))).flatten := by
    rw [List.getD_eq_getElem?_getD, List.getElem?_map, List.getElem?_eq_getElem hsB]
    rw [List.getD_eq_getElem B [] hsB]
    rfl
  rw [hrowB]
  have hinner : ∀ c ∈ (A.getD i []).map (fun a => (B.getD s []).map (fun b => a * b)),
      c.length = q := by
    intro c hc
    obtain ⟨a, _, rfl⟩ := List.mem_map.mp hc
    rw [List.length_map]
    exact hB.2 s hs
  rw [flatten_getD_uniform 0 q _ hinner j t ht]
  have hjA : j < (A.getD i []).length := by rw [hA.2 i hi]; omega
  have hrowj : ((A.getD i []).map (fun a => (B.getD s []).map (fun b => a * b))).getD j [] =
      (B.getD s []).map (fun b => entry A i j * b) := by
    rw [List.getD_eq_getElem?_getD, List.getElem?_map, List.getElem?_eq_getElem hjA]
    rw [entry, List.getD_eq_getElem _ 0 hjA]
    rfl
  rw [hrowj]
  have htB : t < (B.getD s []).length := by rw [hB.2 s hs]; omega
  have hBst : entry B s t = (B.getD s []).get ⟨t, htB⟩ := by
    rw [entry, List.getD_eq_getElem _ 0 htB]
    rfl
  rw [hBst]
  rw [List.getD_eq_getElem?_getD, List.getElem?_map, List.getElem?_eq_getElem htB]
  rfl

theorem dims_addMat {r c : ℕ} (A B : Mat) (hA : dimsOk A r c) (hB : dimsOk B r c) :
    dimsOk (addMat A B) r c := by
  constructor
  · rw [addMat, List.length_zipWith, hA.1, hB.1, Nat.min_self]
  · intro k hk
    have hkA : k < A.length := by rw [hA.1]; omega
    have hkB : k < B.length := by rw [hB.1]; omega
    have hrow : (addMat A B).getD k [] =
        List.zipWith (fun a b => a + b) (A.getD k []) (B.getD k []) := by
      rw [addMat, List.getD_eq_getElem?_getD,
         List.getElem?_eq_getElem (by rw [List.length_zipWith, hA.1, hB.1, Nat.min_self]; omega)]
      rw [List.getElem_zipWith]
      rw [List.getD_eq_getElem A [] hkA, List.getD_eq_getElem B [] hkB]
      rfl
    rw [hrow, List.length_zipWith, hA.2 k hk, hB.2 k hk, Nat.min_self]

theorem entry_addMat {r c : ℕ} (A B : Mat) (hA : dimsOk A r c) (hB : dimsOk B r c)
    (i j : ℕ) (hi : i < r) (hj : j < c) :
    entry (addMat A B) i j = entry A i j + entry B i j := by
  have hiA : i < A.length := by rw [hA.1]; omega
  have hiB : i < B.length := by rw [hB.1]; omega
  have hrow : (addMat A B).getD i [] =
      List.zipWith (fun a b => a + b) (A.getD i []) (B.getD i []) := by
    rw [addMat, List.getD_eq_getElem?_getD,
       List.getElem?_eq_getElem (by rw [List.length_zipWith, hA.1, hB.1, Nat.min_self]; omega)]
    rw [List.getElem_zipWith]
    rw [List.getD_eq_getElem A [] hiA, List.getD_eq_getElem B [] hiB]
    rfl
  have hjA : j < (A.getD i []).length := by rw [hA.2 i hi]; omega
  have hjB : j < (B.getD i []).length := by rw [hB.2 i hi]; omega
  rw [entry, hrow]
  rw [List.getD_eq_getElem?_getD,
     List.getElem?_eq_getElem (by rw [List.length_zipWith]; omega)]
  rw [List.getElem_zipWith]
  rw [entry, entry, List.getD_eq_getElem _ 0 hjA, List.getD_eq_getElem _ 0 hjB]
  rfl

theorem map_range_getD {α : Type} (dflt : α) (n : ℕ) (f : ℕ → α) (k : ℕ) (hk : k < n) :
    ((List.range n).map f).getD k dflt = f k := by
  rw [List.getD_eq_getElem?_getD, List.getElem?_map,
     List.getElem?_eq_getElem (by simpa using hk)]
  simp

/-- C5: with the magnetic flag set and aligned alpha/beta/overlap stacks of
per-cell dimension d, `mapContent` produces per cell the Hamiltonian slice
`kron(A_k, P_up) + kron(B_k, P_dn)` of dimension 2d, block-diagonal(A_k, B_k)
under the 2×2 spin-projector convention (entry (2i+s, 2j+t) is A_k(i,j) for
s = t = 0, B_k(i,j) for s = t = 1, and 0 otherwise), replaces every overlap
slice by `kron(S_k, I_2)` (entry (2i+s, 2j+t) is S_k(i,j) for s = t, else 0),
and exactly doubles the filling and every per-species orbital count. -/
theorem c5_magnetic_assembly (st : ScanState) (orbs : List ℤ) (d n : ℕ)
    (hmag : st.MAGNETIC_FLAG = true) (hsoc : st.SOC_FLAG = false)
    (hfock : st.fockMatrices = [])
    (hlen : st.alphaMatrices.length = n) (hblen : st.betaMatrices.length = n)
    (holen : st.overlapMatrices.length = n)
    (hA : ∀ A ∈ st.alphaMatrices, dimsOk A d d)
    (hB : ∀ B ∈ st.betaMatrices, dimsOk B d d)
    (hS : ∀ S ∈ st.overlapMatrices, dimsOk S d d) :
    ∃ info, mapContent st orbs = some info ∧
      info.hamiltonian.length = n ∧ info.overlap.length = n ∧
      (∀ k, k < n →
        info.hamiltonian.getD k [] =
          addMat (kron (st.alphaMatrices.getD k []) spinUpBlock)
            (kron (st.betaMatrices.getD k []) spinDownBlock) ∧
        dimsOk (info.hamiltonian.getD k []) (2 * d) (2 * d) ∧
        dimsOk (info.overlap.getD k []) (2 * d) (2 * d) ∧
        (∀ i j s t, i < d → j < d → s < 2 → t < 2 →
          entry (info.hamiltonian.getD k []) (2 * i + s) (2 * j + t) =
            if s = 0 ∧ t = 0 then entry (st.alphaMatrices.getD k []) i j
            else if s = 1 ∧ t = 1 then entry (st.betaMatrices.getD k []) i j
            else 0) ∧
        info.overlap.getD k [] = kron (st.overlapMatrices.getD k []) eye2 ∧
        (∀ i j s t, i < d → j < d → s < 2 → t < 2 →
          entry (info.overlap.getD k []) (2 * i + s) (2 * j + t) =
            if s = t then entry (st.overlapMatrices.getD k []) i j else 0)) ∧
      info.filling = 2 * ((st.totalElectrons : ℚ) / 2) ∧
      info.norbitals = orbs.map (fun v => v * 2) := by
  have hcond : st.alphaMatrices.length ≤ st.betaMatrices.length ∧
      st.alphaMatrices.length ≤ st.overlapMatrices.length := by omega
  refine ⟨⟨st.ndim, st.bravaisLattice, st.motif, (st.totalElectrons : ℚ) / 2 * 2,
    st.bravaisVectors,
    (List.range n).map (fun kk => kron (st.overlapMatrices.getD kk []) eye2),
    orbs.map (fun v => v * 2),
    (List.range n).map (fun kk =>
      addMat (kron (st.alphaMatrices.getD kk []) spinUpBlock)
        (kron (st.betaMatrices.getD kk []) spinDownBlock))⟩,
    ?_, by simp, by simp, ?_, by ring, rfl⟩
  · simp only [mapContent]
    rw [if_neg (by simp [hsoc]), if_pos hmag, magneticFold, if_pos hcond]
    rw [hfock, List.nil_append, hlen]
  · intro k hkn
    rw [map_range_getD [] n _ k hkn, map_range_getD [] n _ k hkn]
    have hAk : dimsOk (st.alphaMatrices.getD k []) d d :=
      hA _ (getD_mem _ _ _ (by omega))
    have hBk : dimsOk (st.betaMatrices.getD k []) d d :=
      hB _ (getD_mem _ _ _ (by omega))
    have hSk : dimsOk (st.overlapMatrices.getD k []) d d :=
      hS _ (getD_mem _ _ _ (by omega))
    have hup : dimsOk spinUpBlock 2 2 := by decide
    have hdn : dimsOk spinDownBlock 2 2 := by decide
    have heye : dimsOk eye2 2 2 := by decide
    have hkronA : dimsOk (kron (st.alphaMatrices.getD k []) spinUpBlock) (2 * d) (2 * d) :=
      dims_kron _ _ hAk hup
    have hkronB : dimsOk (kron (st.betaMatrices.getD k []) spinDownBlock) (2 * d) (2 * d) :=
      dims_kron _ _ hBk hdn
    refine ⟨rfl, dims_addMat _ _ hkronA hkronB,
      dims_kron _ _ hSk heye, ?_, rfl, ?_⟩
    · intro i j s t hi hj hs ht
      rw [entry_addMat _ _ hkronA hkronB (2 * i + s) (2 * j + t)
         (by omega) (by omega)]
      rw [entry_kron _ _ hAk hup i j s t hi hj hs ht]
      rw [entry_kron _ _ hBk hdn i j s t hi hj hs ht]
      interval_cases s <;> interval_cases t <;>
        simp [entry, spinUpBlock, spinDownBlock]
    · intro i j s t hi hj hs ht
      rw [entry_kron _ _ hSk heye i j s t hi hj hs ht]
      interval_cases s <;> interval_cases t <;> simp [entry, eye2]

theorem c5_magnetic_assembly_witness :
    ∃ info, mapContent { initState with
                         MAGNETIC_FLAG := true
                         totalElectrons := 3
                         alphaMatrices := [[[1]]]
                         betaMatrices := [[[2]]]
                         overlapMatrices := [[[1]]] } [10, 4] = some info ∧
      info.hamiltonian.length = 1 ∧ info.overlap.length = 1 ∧
      info.filling = 2 * ((3 : ℚ) / 2) ∧
      info.norbitals = [20, 8] := by
  obtain ⟨info, h1, h2, h3, _, h5, h6⟩ :=
    c5_magnetic_assembly { initState with
                           MAGNETIC_FLAG := true
                           totalElectrons := 3
                           alphaMatrices := [[[1]]]
                           betaMatrices := [[[2]]]
                           overlapMatrices := [[[1]]] }
      [10, 4] 1 1 rfl rfl rfl rfl rfl rfl (by decide) (by decide) (by decide)
  exact ⟨info, h1, h2, h3, h5, by simpa using h6⟩

end Xatu
